import Mathlib

/-!
# Self-updater of command-launcher: a verification development

Shallow embedding of `cmd/updater/self-updater.go`.

* Go `string` values are Lean `String`s, that is sequences of characters. The
  code cuts strings at `-` and `/` only, which are single bytes that occur in
  no multi-byte UTF-8 sequence, so cutting characters and cutting bytes agree.
* Go `error` values are represented by their message (`Option GoError`, `none`
  being `nil`).
* `uint8` and `int` values are `Nat` and `Int`; the code performs no arithmetic
  on them, so no wrap-around can occur.
* Calls that leave the package (file fetch, JSON decoding, debug flags, console,
  standard input, URL parsing, HTTP, binary replacement) are answered by a
  `World` of oracles, and every such call is recorded as an `Event` in the
  trace of the run, in program order.
-/

namespace Updater

/-! ## Data model -/

/-- Go `error`, represented by the text of `Error()`. -/
abbrev GoError := String

/-- Raw bytes (`[]byte`, or the content of an `io.Reader`). -/
abbrev Bytes := List Nat

/-- The struct `LatestVersion` (lines 20-25). -/
structure LatestVersion where
  Version : String
  ReleaseNotes : String
  StartPartition : Nat
  EndPartition : Nat
deriving DecidableEq, Repr

/-- The zero value `LatestVersion{}` (line 94). -/
def LatestVersion.zero : LatestVersion :=
  { Version := "", ReleaseNotes := "", StartPartition := 0, EndPartition := 0 }

/-- The type `user.User` as the updater sees it: the only thing the updater
does with it is to call `InPartition(start, end)`. -/
structure User where
  InPartition : Nat → Nat → Bool

/-- Modelled from the spec: the body of `user.User.InPartition` (package
`cmd/user`) is missing; the spec describes it as the test whether the partition of
the current identity falls inside the inclusive range `[start, end]`. -/
def User.ofPartition (partition : Nat) : User :=
  { InPartition := fun start stop => decide (start ≤ partition) && decide (partition ≤ stop) }

/-- The fields of `SelfUpdater` (lines 27-37) except the channel, which is
modelled separately, and the timeout, which only the race of
`CheckUpdateAsync` reads. The field `latestVersion` is the one the goroutine of
`checkSelfUpdate` writes; what `Update` reads from it is a `VersionReads`. -/
structure SelfUpdater where
  latestVersion : LatestVersion
  BinaryName : String
  LatestVersionUrl : String
  SelfUpdateRootUrl : String
  User : User
  CurrentVersion : String

/-- The fields of `url.URL` that are plain strings. -/
structure URL where
  Scheme : String
  Opaque : String
  Host : String
  Path : String
  RawPath : String
  RawQuery : String
  Fragment : String
deriving DecidableEq, Repr

/-- The part of `http.Response` that the updater reads. -/
structure Response where
  StatusCode : Int
  Body : Bytes
deriving DecidableEq, Repr

/-- The collaborators outside the package, as oracles. -/
structure World where
  /-- The function `helper.LoadFile`. -/
  LoadFile : String → Except GoError Bytes
  /-- The function `json.Unmarshal(data, &v)`: the struct left in `v` and the error. -/
  Unmarshal : Bytes → LatestVersion → LatestVersion × Option GoError
  /-- The flag `helper.LoadDebugFlags().ForceSelfUpdate`. -/
  ForceSelfUpdate : Bool
  /-- The call `fmt.Scanf("%c", &resp)`: the value left in `resp` and the error. -/
  Scanf : Int × Option GoError
  /-- The function `url.Parse`. -/
  Parse : String → Except GoError URL
  /-- The method `(*url.URL).String`. -/
  UrlString : URL → String
  /-- The function `helper.HttpGetWrapper`. -/
  HttpGetWrapper : String → Except GoError Response
  /-- The function `update.Apply(body, update.Options{})`. -/
  Apply : Bytes → Option GoError
  /-- The function `update.RollbackError`. -/
  RollbackError : GoError → Option GoError
  /-- The constant `runtime.GOOS`. -/
  GOOS : String
  /-- The constant `runtime.GOARCH`. -/
  GOARCH : String

/-- One call that leaves the package. Formatting calls carry the format string
and the rendered arguments. -/
inductive Event where
  | loadFile (url : String)
  | logInfof (msg : String)
  | logErrorf (msg : String)
  | loadDebugFlags
  | println (args : List String)
  | printf (format : String) (args : List String)
  | reminder (format : String)
  | consoleError (format : String) (args : List String)
  | consoleWarn (format : String) (args : List String)
  | scanf (format : String)
  | urlParse (rawUrl : String)
  | httpGet (url : String)
  | apply (body : Bytes)
  | rollbackError (err : GoError)
  | bodyClose
deriving DecidableEq, Repr

/-! ## `strings.Split` with a one-character separator -/

/-- The function `strings.Count(s, sep)` for a one-character `sep`. -/
def Count (sep : Char) : List Char → Nat
  | [] => 0
  | c :: cs => (if c = sep then 1 else 0) + Count sep cs

/-- The function `strings.Index(s, sep)` for a one-character `sep`;
`none` stands for `-1`. -/
def Index (sep : Char) : List Char → Option Nat
  | [] => none
  | c :: cs => if c = sep then some 0 else (Index sep cs).map (· + 1)

/-- The loop of `genSplit`: at most `n` cuts, each at the first separator of
what is left; the rest is the last element. -/
def splitLoop (sep : Char) : Nat → List Char → List (List Char)
  | 0, s => [s]
  | n + 1, s =>
    match Index sep s with
    | none => [s]
    | some m => s.take m :: splitLoop sep n (s.drop (m + 1))

/-- The call `strings.Split(s, sep)` for a one-character `sep`: `genSplit` with
`n = Count(s, sep) + 1` result slots, hence `Count(s, sep)` cuts. -/
def Split (s : String) (sep : Char) : List String :=
  (splitLoop sep (Count sep s.data) s.data).map String.mk

/-! ## `checkSelfUpdate` (lines 84-109) -/

/-- What the goroutine of `checkSelfUpdate` leaves behind: the updater with its
`latestVersion` field, the value sent on the channel (`none`: the goroutine
stopped on an index out of range before sending) and the trace. -/
structure CheckRun where
  updater : SelfUpdater
  sent : Option Bool
  trace : List Event

/-- Lines 102-103: `versionParts[len(versionParts)-1]`; `none` is the run-time
failure of the index expression. -/
def suffixVersion (currentVersion : String) : Option String :=
  let versionParts := Split currentVersion '-'
  versionParts.get? (versionParts.length - 1)

/-- The goroutine started by `checkSelfUpdate`. -/
def checkSelfUpdate (w : World) (u : SelfUpdater) : CheckRun :=
  match w.LoadFile u.LatestVersionUrl with
  | .error err =>
    { updater := u, sent := some false,
      trace := [.loadFile u.LatestVersionUrl, .logInfof err] }
  | .ok data =>
    let r := w.Unmarshal data LatestVersion.zero
    let u1 := { u with latestVersion := r.1 }
    match r.2 with
    | some err =>
      { updater := u1, sent := some false,
        trace := [.loadFile u.LatestVersionUrl, .logErrorf err] }
    | none =>
      match suffixVersion u.CurrentVersion with
      | none => { updater := u1, sent := none, trace := [.loadFile u.LatestVersionUrl] }
      | some suffix =>
        { updater := u1,
          sent := some (u1.latestVersion.Version != suffix &&
            u1.User.InPartition u1.latestVersion.StartPartition u1.latestVersion.EndPartition),
          trace := [.loadFile u.LatestVersionUrl] }

/-! ## `binaryFileName`, `latestDownloadUrl` (lines 133-148) and `path.Join` -/

/-- The inner loop of the `..` case of `path.Clean`, after `out.w--`: step
back while `out.w > dotdot && out.index(out.w) != '/'`. The argument and the
result are values of `out.w`. -/
def scanBack (out : List Char) (dotdot : Nat) : Nat → Nat
  | 0 => 0
  | w + 1 => if dotdot < w + 1 ∧ out.getD (w + 1) '/' ≠ '/' then scanBack out dotdot w else w + 1

/-- The main loop `for r < n` of `path.Clean`: `rest` is `path[r:]`, `out` is
the written part of the buffer (`out.w` is its length). Every turn consumes at
least one byte of `rest`, so `fuel = len(path)` turns are enough. -/
def cleanLoop (rooted : Bool) : Nat → List Char → List Char → Nat → List Char
  | 0, _, out, _ => out
  | fuel + 1, rest, out, dotdot =>
    match rest with
    | [] => out
    | c :: r1 =>
      if c = '/' then
        cleanLoop rooted fuel r1 out dotdot
      else if c = '.' ∧ (r1 = [] ∨ r1.head? = some '/') then
        cleanLoop rooted fuel r1 out dotdot
      else if c = '.' ∧ r1.head? = some '.' ∧ (r1.tail = [] ∨ r1.tail.head? = some '/') then
        if dotdot < out.length then
          cleanLoop rooted fuel r1.tail (out.take (scanBack out dotdot (out.length - 1))) dotdot
        else if rooted = false then
          let out1 := (if 0 < out.length then out ++ ['/'] else out) ++ ['.', '.']
          cleanLoop rooted fuel r1.tail out1 out1.length
        else
          cleanLoop rooted fuel r1.tail out dotdot
      else
        let out1 :=
          if (rooted = true ∧ out.length ≠ 1) ∨ (rooted = false ∧ out.length ≠ 0) then out ++ ['/']
          else out
        cleanLoop rooted fuel (rest.dropWhile (· ≠ '/')) (out1 ++ rest.takeWhile (· ≠ '/')) dotdot

/-- The function `path.Clean` of the Go standard library. -/
def Clean (path : List Char) : List Char :=
  if path = [] then ['.']
  else
    let rooted := path.head? = some '/'
    let out :=
      if rooted then cleanLoop true path.length path.tail ['/'] 1
      else cleanLoop false path.length path [] 0
    if out = [] then ['.'] else out

/-- The loop of `path.Join` that builds `buf`: every element is appended, after
a `/` when `buf` is not empty; empty elements are skipped while `buf` is empty. -/
def joinBuf : List Char → List (List Char) → List Char
  | buf, [] => buf
  | buf, e :: es =>
    if 0 < buf.length ∨ e ≠ [] then
      joinBuf ((if 0 < buf.length then buf ++ ['/'] else buf) ++ e) es
    else joinBuf buf es

/-- The function `path.Join` of the Go standard library; the total size of the
elements is zero exactly when every element is empty. -/
def Join (elem : List String) : String :=
  if (elem.map String.length).sum = 0 then ""
  else String.mk (Clean (joinBuf [] (elem.map String.data)))

/-- The method `binaryFileName` (lines 143-148). -/
def binaryFileName (w : World) (u : SelfUpdater) : String :=
  if w.GOOS = "windows" then u.BinaryName ++ ".exe" else u.BinaryName

/-- The method `latestDownloadUrl` (lines 133-141): the pair of results. -/
def latestDownloadUrl (w : World) (u : SelfUpdater) : String × Option GoError :=
  match w.Parse u.SelfUpdateRootUrl with
  | .error err => ("", some err)
  | .ok updateUrl =>
    (w.UrlString { updateUrl with
        Path := Join [updateUrl.Path, "current", w.GOOS, w.GOARCH, binaryFileName w u] },
      none)

/-! ## `doSelfUpdate` (lines 111-131) and `Update` (lines 52-82) -/

/-- The result of a function that returns an `error`, with the trace of its calls. -/
structure Run where
  err : Option GoError
  trace : List Event
deriving DecidableEq, Repr

/-- The method `doSelfUpdate`. The deferred `resp.Body.Close()` is registered
at line 121 and runs at each return after it. For `%d` the status code is
rendered in decimal, for `%v` an error is rendered by its message; at line 127
`err` holds the `nil` that `update.RollbackError` returned, rendered `<nil>`. -/
def doSelfUpdate (w : World) (url : String) : Run :=
  match w.HttpGetWrapper url with
  | .error err =>
    { err := some ("cannot download the new version from " ++ url ++ ": " ++ err),
      trace := [.httpGet url] }
  | .ok resp =>
    if resp.StatusCode ≠ 200 then
      { err := some ("cannot download the new version from " ++ url ++ ": code " ++
          toString resp.StatusCode),
        trace := [.httpGet url] }
    else
      match w.Apply resp.Body with
      | none => { err := none, trace := [.httpGet url, .apply resp.Body, .bodyClose] }
      | some err =>
        match w.RollbackError err with
        | some rerr =>
          { err := some ("update failed, unfortunately, the rollback did not work neither: " ++
              rerr ++ "\nplease contact #build-services team"),
            trace := [.httpGet url, .apply resp.Body, .rollbackError err, .bodyClose] }
        | none =>
          { err := none,
            trace := [.httpGet url, .apply resp.Body, .rollbackError err,
              .consoleWarn "update failed, rollback to previous version: %v\n" ["<nil>"],
              .bodyClose] }

/-- The values `Update` finds in `u.latestVersion` at its three reads (lines 60,
61 and 70). The goroutine of `checkSelfUpdate` writes that field at lines 94-95
and is not stopped when the timer wins the race, so in a forced run after a
timeout the three reads need not agree with each other nor with any one state
of the updater. -/
structure VersionReads where
  line60 : LatestVersion
  line61 : LatestVersion
  line70 : LatestVersion
deriving DecidableEq, Repr

/-- The reads of a run in which the goroutine of `checkSelfUpdate` has come to
its end before `Update` prints. -/
def VersionReads.settled (latestVersion : LatestVersion) : VersionReads :=
  { line60 := latestVersion, line61 := latestVersion, line70 := latestVersion }

/-- Lines 58-63 and the read of line 65: banner, release notes, prompt. -/
def promptTrace (u : SelfUpdater) (reads : VersionReads) : List Event :=
  [.println ["\n-----------------------------------"],
   .printf "🚀 %s version %s \n" [u.BinaryName, u.CurrentVersion],
   .printf "\nan update of %s (%s) is available:\n\n" [u.BinaryName, reads.line60.Version],
   .println [reads.line61.ReleaseNotes],
   .println [],
   .reminder "do you want to update it? [yN]",
   .scanf "%c"]

/-- Line 70 and the call of `latestDownloadUrl` at line 71, which calls `url.Parse`. -/
def resolveTrace (u : SelfUpdater) (reads : VersionReads) : List Event :=
  [.printf "update and install the latest version of %s (%s)\n"
      [u.BinaryName, reads.line70.Version],
   .urlParse u.SelfUpdateRootUrl]

/-- The test of line 65, negated: the read succeeded and `resp` is `'y'` or `'Y'`. -/
def consent (w : World) : Bool :=
  !(w.Scanf.2 ≠ none || (w.Scanf.1 != ('y'.toNat : Int) && w.Scanf.1 != ('Y'.toNat : Int)))

/-- The first statement of `Update` (line 53) once a value has been received:
`||` evaluates `helper.LoadDebugFlags()` only when the received value is `false`. -/
def canBeSelfUpdated (w : World) (received : Bool) : Bool × List Event :=
  if received then (true, []) else (w.ForceSelfUpdate, [.loadDebugFlags])

/-- The method `Update`, from the moment the receive of line 53 has delivered
`received`; `reads` are the values it finds in `u.latestVersion`. -/
def Update (w : World) (u : SelfUpdater) (reads : VersionReads) (received : Bool) : Run :=
  let c := canBeSelfUpdated w received
  if !c.1 then { err := none, trace := c.2 }
  else if !consent w then
    { err := some "Aborted by user",
      trace := c.2 ++ promptTrace u reads ++ [.println ["aborted by user"]] }
  else
    let pre := c.2 ++ promptTrace u reads ++ resolveTrace u reads
    match latestDownloadUrl w u with
    | (_, some err) =>
      { err := some err, trace := pre ++ [.consoleError "update failed: %s\n" [err]] }
    | (downloadUrl, none) =>
      let d := doSelfUpdate w downloadUrl
      match d.err with
      | some err =>
        { err := some err, trace := pre ++ d.trace ++ [.consoleError "update failed: %s\n" [err]] }
      | none => { err := none, trace := pre ++ d.trace }

/-! ## `CheckUpdateAsync` (lines 39-50) as a transition system

The goroutine of `checkSelfUpdate`, the timer of `time.After(u.Timeout)`, the
outer goroutine of `CheckUpdateAsync` and the receive of `Update` (line 53)
run interleaved. Time is abstracted: the timer may fire at any moment. All
three channels have capacity one. -/

/-- The two cases of the `select` of lines 43-48. -/
inductive Branch where
  | check
  | timer
deriving DecidableEq, Repr

/-- Where the outer goroutine stands: blocked in `select`, about to execute the
send `ch <- v` of the case it took, or finished. -/
inductive OuterPc where
  | selecting
  | sending (v : Bool) (b : Branch)
  | finished (b : Branch)
deriving DecidableEq, Repr

/-- State of one run of `CheckUpdateAsync`. -/
structure AsyncState where
  /-- The goroutine of `checkSelfUpdate` has come to its end. -/
  checkDone : Bool
  /-- Buffer of the channel returned by `checkSelfUpdate`. -/
  checkChan : List Bool
  /-- The timer has fired. -/
  timerFired : Bool
  /-- Number of values in the buffer of the channel of `time.After`. -/
  timerChan : Nat
  outer : OuterPc
  /-- Buffer of `ch`, that is of `u.selfUpdateChan`. -/
  selfUpdateChan : List Bool
  /-- Every value ever sent on `ch`, oldest first. -/
  written : List Bool
  /-- Every value received from `u.selfUpdateChan`, oldest first. -/
  received : List Bool
deriving DecidableEq, Repr

/-- The state right after `CheckUpdateAsync` has returned. -/
def AsyncState.init : AsyncState :=
  { checkDone := false, checkChan := [], timerFired := false, timerChan := 0,
    outer := .selecting, selfUpdateChan := [], written := [], received := [] }

/-- The atomic steps of the run. -/
inductive Action where
  /-- The goroutine of `checkSelfUpdate` ends, sending its value if it has one. -/
  | checkEnd
  /-- The timer fires and sends on its channel. -/
  | timerFire
  /-- The `select` takes `case value := <-u.checkSelfUpdate()`. -/
  | selectCheck
  /-- The `select` takes `case <-time.After(u.Timeout)`. -/
  | selectTimer
  /-- The send `ch <- value` or `ch <- false` of the case taken. -/
  | send
  /-- The receive `<-u.selfUpdateChan` of `Update`. -/
  | receive
deriving DecidableEq, Repr

/-- One step; `none` when the action is not enabled (a send on a full channel
and a receive on an empty one block). `sent` is the outcome of the goroutine of
`checkSelfUpdate`. -/
def CheckUpdateAsync.step (sent : Option Bool) (s : AsyncState) : Action → Option AsyncState
  | .checkEnd =>
    if s.checkDone then none
    else
      match sent with
      | none => some { s with checkDone := true }
      | some v =>
        if s.checkChan.length < 1 then
          some { s with checkDone := true, checkChan := s.checkChan ++ [v] }
        else none
  | .timerFire =>
    if s.timerFired ∨ ¬ s.timerChan < 1 then none
    else some { s with timerFired := true, timerChan := s.timerChan + 1 }
  | .selectCheck =>
    match s.outer, s.checkChan with
    | .selecting, v :: rest => some { s with outer := .sending v .check, checkChan := rest }
    | _, _ => none
  | .selectTimer =>
    match s.outer, s.timerChan with
    | .selecting, n + 1 => some { s with outer := .sending false .timer, timerChan := n }
    | _, _ => none
  | .send =>
    match s.outer with
    | .sending v b =>
      if s.selfUpdateChan.length < 1 then
        some { s with outer := .finished b, selfUpdateChan := s.selfUpdateChan ++ [v],
                      written := s.written ++ [v] }
      else none
    | _ => none
  | .receive =>
    match s.selfUpdateChan with
    | v :: rest => some { s with selfUpdateChan := rest, received := s.received ++ [v] }
    | [] => none

/-- A schedule, run from a state; `none` when one of its actions is not enabled. -/
def CheckUpdateAsync.run (sent : Option Bool) : AsyncState → List Action → Option AsyncState
  | s, [] => some s
  | s, a :: as =>
    match CheckUpdateAsync.step sent s a with
    | none => none
    | some s1 => CheckUpdateAsync.run sent s1 as

/-- The outer goroutine has finished. -/
def AsyncState.outerFinished (s : AsyncState) : Bool :=
  match s.outer with
  | .finished _ => true
  | _ => false

/-- The case of the `select` that was taken, if one was. -/
def AsyncState.branch (s : AsyncState) : Option Branch :=
  match s.outer with
  | .selecting => none
  | .sending _ b => some b
  | .finished b => some b

/-- Number of steps still to come: one of the check, one of the timer, two of
the outer goroutine (the `select` and the send), one receive. -/
def AsyncState.stepsLeft (s : AsyncState) : Nat :=
  (if s.checkDone then 0 else 1) + (if s.timerFired then 0 else 1) +
    (match s.outer with
     | .selecting => 2
     | .sending _ _ => 1
     | .finished _ => 0) +
    (if s.received = [] then 1 else 0)

/-- The value `v` is what case `b` of the `select` publishes: the value the
check has sent, or `false` on the timer case. -/
def Publishes (sent : Option Bool) (v : Bool) (b : Branch) : Prop :=
  (b = .check ∧ sent = some v) ∨ (b = .timer ∧ v = false)

/-- Invariant of the run after `n` steps. -/
structure Inv (sent : Option Bool) (s : AsyncState) (n : Nat) : Prop where
  recv : s.received ++ s.selfUpdateChan = s.written
  outer :
    match s.outer with
    | .selecting => s.written = []
    | .sending v b => s.written = [] ∧ Publishes sent v b
    | .finished b => ∃ v, s.written = [v] ∧ Publishes sent v b
  check :
    if s.checkDone then
      (if s.branch = some .check then s.checkChan = [] else s.checkChan = sent.toList)
    else s.checkChan = [] ∧ s.branch ≠ some .check
  timer :
    if s.timerFired then (if s.branch = some .timer then s.timerChan = 0 else s.timerChan = 1)
    else s.timerChan = 0 ∧ s.branch ≠ some .timer
  steps : n + s.stepsLeft = 5

/-! ## Vocabulary of the specification -/

/-- What the specification calls the comparison key: `key` holds no `-` and is
either the whole of `v` or what follows a `-` in `v`, hence what follows the
last `-` of `v`. -/
def IsLastSegment (v key : String) : Prop :=
  '-' ∉ key.data ∧ (v = key ∨ ∃ pre : String, v = pre ++ "-" ++ key)

/-- The call resolves the download URL, talks HTTP or touches the binary. -/
def Event.isDownloadStep : Event → Bool
  | .urlParse _ => true
  | .httpGet _ => true
  | .apply _ => true
  | .rollbackError _ => true
  | .bodyClose => true
  | _ => false

/-- The call prints to the operator or reads the operator's answer. -/
def Event.isConsole : Event → Bool
  | .println _ => true
  | .printf _ _ => true
  | .reminder _ => true
  | .consoleError _ _ => true
  | .consoleWarn _ _ => true
  | .scanf _ => true
  | _ => false

/-- The call is `update.Apply`. -/
def Event.isApply : Event → Bool
  | .apply _ => true
  | _ => false

/-- The HTTP GET of `url` ends in a transport error or in a status other than 200. -/
def downloadFails (w : World) (url : String) : Bool :=
  match w.HttpGetWrapper url with
  | .error _ => true
  | .ok resp => resp.StatusCode != 200

/-- A path element that `path.Clean` copies as it is: not empty, without `/`,
and neither `.` nor `..`. -/
def PlainSegment (seg : List Char) : Prop :=
  seg ≠ [] ∧ '/' ∉ seg ∧ seg ≠ ['.'] ∧ seg ≠ ['.', '.']

/-- The rooted path made of the given elements, each after a `/`. -/
def slashJoin : List (List Char) → List Char
  | [] => []
  | seg :: segs => '/' :: seg ++ slashJoin segs

/-- A world for concrete runs: metadata announce version `def` for partitions
0 to 100, the operator answers `n`, the download root is `https://example.com/dl`
and the download answers 404. A URL is rendered as scheme, host and path, with
a `/` before a path that lacks one. -/
def sampleWorld : World :=
  { LoadFile := fun _ => .ok [123, 125]
    Unmarshal := fun _ _ =>
      ({ Version := "def", ReleaseNotes := "notes", StartPartition := 0, EndPartition := 100 }, none)
    ForceSelfUpdate := false
    Scanf := (110, none)
    Parse := fun _ =>
      .ok { Scheme := "https", Opaque := "", Host := "example.com", Path := "/dl", RawPath := "",
            RawQuery := "", Fragment := "" }
    UrlString := fun x =>
      x.Scheme ++ "://" ++ x.Host ++
        (if x.Path ≠ "" ∧ x.Path.data.head? ≠ some '/' then "/" else "") ++ x.Path
    HttpGetWrapper := fun _ => .ok { StatusCode := 404, Body := [] }
    Apply := fun _ => some "permission denied"
    RollbackError := fun _ => none
    GOOS := "linux"
    GOARCH := "amd64" }

/-- An updater for concrete runs, in partition 7, running version `2.0.0-abc`. -/
def sampleUpdater : SelfUpdater :=
  { latestVersion := { Version := "def", ReleaseNotes := "notes", StartPartition := 0,
                       EndPartition := 100 }
    BinaryName := "cola"
    LatestVersionUrl := "https://example.com/version"
    SelfUpdateRootUrl := "https://example.com/dl"
    User := User.ofPartition 7
    CurrentVersion := "2.0.0-abc" }

/-- The sample updater with a binary name that climbs out of two directories. -/
def dotsUpdater : SelfUpdater :=
  { sampleUpdater with BinaryName := "../../x" }

/-- The sample updater with a download root that ends in `/`. -/
def slashUpdater : SelfUpdater :=
  { sampleUpdater with SelfUpdateRootUrl := "https://example.com/dl/" }

/-- The URL that `https://example.com/dl/` parses to. -/
def slashRoot : URL :=
  { Scheme := "https", Opaque := "", Host := "example.com", Path := "/dl/", RawPath := "",
    RawQuery := "", Fragment := "" }

/-- The sample world with the download root `https://example.com/dl/`. -/
def slashWorld : World :=
  { sampleWorld with Parse := fun _ => .ok slashRoot }

/-- The reads of `Update` for concrete runs, after a check that has ended. -/
def sampleReads : VersionReads :=
  VersionReads.settled sampleUpdater.latestVersion

/-! ## Facts about `strings.Split` -/

theorem Index_eq_none {sep : Char} {s : List Char} : Index sep s = none ↔ sep ∉ s := by
  induction s with
  | nil => simp [Index]
  | cons c cs ih =>
    by_cases h : c = sep
    · simp [Index, h]
    · have h2 : ¬ sep = c := fun e => h e.symm
      simp [Index, h, h2, ih]

theorem Count_eq_zero {sep : Char} {s : List Char} : Count sep s = 0 ↔ sep ∉ s := by
  induction s with
  | nil => simp [Count]
  | cons c cs ih =>
    by_cases h : c = sep
    · simp [Count, h]
    · have h2 : ¬ sep = c := fun e => h e.symm
      simp [Count, h, h2, ih]

/-- A successful `Index` cuts the string at the first separator, and the rest
holds one separator less. -/
theorem Index_eq_some {sep : Char} {s : List Char} {m : Nat} (h : Index sep s = some m) :
    s = s.take m ++ sep :: s.drop (m + 1) ∧ sep ∉ s.take m ∧
      Count sep s = Count sep (s.drop (m + 1)) + 1 := by
  induction s generalizing m with
  | nil => simp [Index] at h
  | cons c cs ih =>
    by_cases hc : c = sep
    · simp [Index, hc] at h
      subst h
      simp [hc, Count]
      omega
    · have h2 : ¬ sep = c := fun e => hc e.symm
      simp only [Index, hc, if_false, Option.map_eq_some'] at h
      obtain ⟨k, hk, rfl⟩ := h
      obtain ⟨h1, h3, h4⟩ := ih hk
      refine ⟨?_, ?_, ?_⟩
      · simp only [List.take_succ_cons, List.drop_succ_cons, List.cons_append]
        rw [← h1]
      · simp [h2, h3]
      · simp [Count, hc, h4]

/-- With enough fuel the loop of `genSplit` ends on a piece that holds no
separator, that is the whole input when the input holds none and that follows
a separator of the input otherwise. -/
theorem splitLoop_last (sep : Char) (n : Nat) (s : List Char) (hn : Count sep s ≤ n) :
    ∃ init last, splitLoop sep n s = init ++ [last] ∧ sep ∉ last ∧
      (sep ∉ s → init = [] ∧ last = s) ∧ (sep ∈ s → ∃ pre, s = pre ++ sep :: last) := by
  induction n generalizing s with
  | zero =>
    have h0 : sep ∉ s := Count_eq_zero.mp (Nat.le_zero.mp hn)
    exact ⟨[], s, by simp [splitLoop], h0, fun _ => ⟨rfl, rfl⟩, fun h => absurd h h0⟩
  | succ n ih =>
    cases hI : Index sep s with
    | none =>
      have h0 : sep ∉ s := Index_eq_none.mp hI
      exact ⟨[], s, by simp [splitLoop, hI], h0, fun _ => ⟨rfl, rfl⟩, fun h => absurd h h0⟩
    | some m =>
      obtain ⟨h1, h2, h3⟩ := Index_eq_some hI
      have hmem : sep ∈ s := by
        rw [h1]; simp
      obtain ⟨init, last, e, hl, _, hin⟩ := ih (s.drop (m + 1)) (by omega)
      refine ⟨s.take m :: init, last, by simp [splitLoop, hI, e], hl,
        fun h => absurd hmem h, fun _ => ?_⟩
      by_cases hd : sep ∈ s.drop (m + 1)
      · obtain ⟨pre, hp⟩ := hin hd
        refine ⟨s.take m ++ sep :: pre, ?_⟩
        conv_lhs => rw [h1, hp]
        simp
      · obtain ⟨-, hq⟩ := (‹sep ∉ s.drop (m + 1) → init = [] ∧ last = s.drop (m + 1)›) hd
        exact ⟨s.take m, by rw [hq]; exact h1⟩

/-- The index expression of line 103 reads the last element of the slice. -/
theorem suffixVersion_eq_getLast? (v : String) :
    suffixVersion v = (Split v '-').getLast? := by
  simp [suffixVersion, List.getLast?_eq_getElem?]

/-- The comparison key: defined, free of the separator, the whole string when
that holds no separator, and what follows a separator otherwise. -/
theorem suffixVersion_spec (v : String) :
    ∃ key : String, suffixVersion v = some key ∧ '-' ∉ key.data ∧
      ('-' ∉ v.data → key = v) ∧
      ('-' ∈ v.data → ∃ pre : String, v = pre ++ "-" ++ key) := by
  obtain ⟨init, last, e, hl, h0, h1⟩ := splitLoop_last '-' (Count '-' v.data) v.data le_rfl
  refine ⟨String.mk last, ?_, hl, ?_, ?_⟩
  · rw [suffixVersion_eq_getLast?, Split, e]
    simp
  · intro h
    exact String.ext (h0 h).2
  · intro h
    obtain ⟨pre, hp⟩ := h1 h
    exact ⟨String.mk pre, String.ext (by simp [String.data_append, hp])⟩

/-- A string has one last segment only. -/
theorem IsLastSegment.unique {v k1 k2 : String} (h1 : IsLastSegment v k1)
    (h2 : IsLastSegment v k2) : k1 = k2 := by
  have key : ∀ (p1 p2 a b : List Char), '-' ∉ a → '-' ∉ b →
      p1 ++ '-' :: a = p2 ++ '-' :: b → a = b := by
    intro p1 p2 a b ha hb e
    rcases List.append_eq_append_iff.mp e with ⟨c, hc, e2⟩ | ⟨c, hc, e2⟩
    · cases c with
      | nil => simpa using e2
      | cons x c =>
        simp only [List.cons_append, List.cons.injEq] at e2
        exact absurd (by rw [e2.2]; simp) ha
    · cases c with
      | nil => simpa using e2.symm
      | cons x c =>
        simp only [List.cons_append, List.cons.injEq] at e2
        exact absurd (by rw [e2.2]; simp) hb
  obtain ⟨n1, c1⟩ := h1
  obtain ⟨n2, c2⟩ := h2
  rcases c1 with rfl | ⟨p1, e1⟩ <;> rcases c2 with e2 | ⟨p2, e2⟩
  · exact e2
  · exact absurd (by rw [e2]; simp [String.data_append]) n1
  · subst e2
    exact absurd (by rw [e1]; simp [String.data_append]) n2
  · have e : p1.data ++ '-' :: k1.data = p2.data ++ '-' :: k2.data := by
      have := congrArg String.data (e1.symm.trans e2)
      simpa [String.data_append] using this
    exact String.ext (key _ _ _ _ n1 n2 e)

/-- The key computed at lines 102-103 is the last segment of the version. -/
theorem suffixVersion_isLastSegment (v : String) :
    ∃ key : String, suffixVersion v = some key ∧ IsLastSegment v key := by
  obtain ⟨key, h1, h2, h3, h4⟩ := suffixVersion_spec v
  refine ⟨key, h1, h2, ?_⟩
  by_cases h : '-' ∈ v.data
  · exact Or.inr (h4 h)
  · exact Or.inl (h3 h).symm

/-! ## The branches of `Update` -/

/-- The branch of lines 66-67. -/
theorem Update_decline (w : World) (u : SelfUpdater) (reads : VersionReads) (received : Bool)
    (hE : (canBeSelfUpdated w received).1 = true) (hC : consent w = false) :
    Update w u reads received =
      { err := some "Aborted by user",
        trace := (canBeSelfUpdated w received).2 ++ promptTrace u reads ++
          [.println ["aborted by user"]] } := by
  simp [Update, hE, hC]

/-- The branch of lines 73-74. -/
theorem Update_resolve_error (w : World) (u : SelfUpdater) (reads : VersionReads) (received : Bool)
    (hE : (canBeSelfUpdated w received).1 = true) (hC : consent w = true)
    {url : String} {err : GoError} (hL : latestDownloadUrl w u = (url, some err)) :
    Update w u reads received =
      { err := some err,
        trace := (canBeSelfUpdated w received).2 ++ promptTrace u reads ++ resolveTrace u reads ++
          [.consoleError "update failed: %s\n" [err]] } := by
  simp [Update, hE, hC, hL]

/-- Lines 76-81: the error of `doSelfUpdate` is reported and returned as it is. -/
theorem Update_download (w : World) (u : SelfUpdater) (reads : VersionReads) (received : Bool)
    (hE : (canBeSelfUpdated w received).1 = true) (hC : consent w = true)
    {url : String} (hL : latestDownloadUrl w u = (url, none)) :
    Update w u reads received =
      { err := (doSelfUpdate w url).err,
        trace := (canBeSelfUpdated w received).2 ++ promptTrace u reads ++ resolveTrace u reads ++
          (doSelfUpdate w url).trace ++
          (match (doSelfUpdate w url).err with
           | some err => [.consoleError "update failed: %s\n" [err]]
           | none => []) } := by
  cases hD : (doSelfUpdate w url).err <;> simp [Update, hE, hC, hL, hD]

/-- The value computed by line 53. -/
theorem canBeSelfUpdated_value (w : World) (received : Bool) :
    (canBeSelfUpdated w received).1 = true ↔ received = true ∨ w.ForceSelfUpdate = true := by
  cases received <;> simp [canBeSelfUpdated]

/-- The calls made by line 53. -/
theorem canBeSelfUpdated_trace (w : World) (received : Bool) :
    (canBeSelfUpdated w received).2 = if received = true then [] else [Event.loadDebugFlags] := by
  cases received <;> rfl

/-- The first call of `doSelfUpdate` is the HTTP GET of the URL. -/
theorem doSelfUpdate_httpGet (w : World) (url : String) :
    Event.httpGet url ∈ (doSelfUpdate w url).trace := by
  unfold doSelfUpdate
  cases w.HttpGetWrapper url with
  | error e => simp
  | ok resp =>
    by_cases h : resp.StatusCode = 200
    · simp only [h, ne_eq, not_true_eq_false, if_false]
      cases w.Apply resp.Body with
      | none => simp
      | some e =>
        cases hR : w.RollbackError e <;> simp [hR]
    · simp [h]

/-- The test of line 65 in words. -/
theorem consent_iff (w : World) :
    consent w = true ↔
      w.Scanf.2 = none ∧ (w.Scanf.1 = ('y'.toNat : Int) ∨ w.Scanf.1 = ('Y'.toNat : Int)) := by
  simp only [consent, Bool.not_eq_true', Bool.or_eq_false_iff, decide_eq_false_iff_not,
    Bool.and_eq_false_iff, bne_eq_false_iff_eq, ne_eq, not_not]

/-! ## `path.Join` on plain elements -/

theorem takeWhile_plain (seg tail : List Char) (hs : '/' ∉ seg)
    (ht : tail = [] ∨ tail.head? = some '/') :
    (seg ++ tail).takeWhile (· ≠ '/') = seg ∧ (seg ++ tail).dropWhile (· ≠ '/') = tail := by
  induction seg with
  | nil =>
    rcases ht with rfl | ht
    · simp
    · cases tail with
      | nil => simp
      | cons c cs =>
        simp only [List.head?_cons, Option.some.injEq] at ht
        subst ht
        simp
  | cons c cs ih =>
    simp only [List.mem_cons, not_or] at hs
    have hc : c ≠ '/' := fun e => hs.1 e.symm
    obtain ⟨h1, h2⟩ := ih hs.2
    have hcd : decide (c ≠ '/') = true := by simpa using hc
    rw [List.cons_append, List.takeWhile_cons, List.dropWhile_cons]
    simp only [hcd, if_true, h1, h2, and_self]

theorem slashJoin_tail (segs : List (List Char)) :
    slashJoin segs = [] ∨ (slashJoin segs).head? = some '/' := by
  cases segs <;> simp [slashJoin]

theorem slashJoin_append (a b : List (List Char)) :
    slashJoin (a ++ b) = slashJoin a ++ slashJoin b := by
  induction a with
  | nil => rfl
  | cons x xs ih => simp [slashJoin, ih]

/-- The loop of `path.Clean` ends on the end of its input, not on the end of
its fuel: any fuel of at least the length of the input gives the same result. -/
theorem cleanLoop_fuel (rooted : Bool) (f1 f2 : Nat) (rest out : List Char) (dotdot : Nat)
    (h1 : rest.length ≤ f1) (h2 : rest.length ≤ f2) :
    cleanLoop rooted f1 rest out dotdot = cleanLoop rooted f2 rest out dotdot := by
  induction f1 generalizing f2 rest out dotdot with
  | zero =>
    have hr : rest = [] := List.eq_nil_of_length_eq_zero (by omega)
    subst hr
    cases f2 <;> simp [cleanLoop]
  | succ k ih =>
    cases rest with
    | nil => cases f2 <;> simp [cleanLoop]
    | cons c r1 =>
      obtain ⟨m, rfl⟩ : ∃ m, f2 = m + 1 := ⟨f2 - 1, by simp at h2; omega⟩
      simp only [List.length_cons] at h1 h2
      have htail : r1.tail.length ≤ r1.length := by simp
      have hdrop : ((c :: r1).dropWhile (· ≠ '/')).length ≤ r1.length ∨ c = '/' := by
        by_cases hc : c = '/'
        · exact Or.inr hc
        · left
          have hcd : decide (c ≠ '/') = true := by simpa using hc
          rw [List.dropWhile_cons]
          simp only [hcd, if_true]
          exact (List.dropWhile_sublist _).length_le
      rw [cleanLoop, cleanLoop]
      split_ifs with hc <;>
        first
        | exact ih m _ _ _ (by omega) (by omega)
        | rcases hdrop with hd | hd
          · exact ih m _ _ _ (by omega) (by omega)
          · exact absurd hd hc

/-- A turn of the loop of `path.Clean` on a `/`. -/
theorem cleanLoop_slash (rooted : Bool) (fuel : Nat) (rest out : List Char) (dotdot : Nat) :
    cleanLoop rooted (fuel + 1) ('/' :: rest) out dotdot = cleanLoop rooted fuel rest out dotdot := by
  simp [cleanLoop]

/-- A turn of the loop of `path.Clean` on a plain element: the element is
copied, after a `/` unless the buffer is at its start. -/
theorem cleanLoop_plain (rooted : Bool) (fuel : Nat) (seg tail out : List Char) (dotdot : Nat)
    (hp : PlainSegment seg) (ht : tail = [] ∨ tail.head? = some '/') :
    cleanLoop rooted (fuel + 1) (seg ++ tail) out dotdot =
      cleanLoop rooted fuel tail
        ((if (rooted = true ∧ out.length ≠ 1) ∨ (rooted = false ∧ out.length ≠ 0)
          then out ++ ['/'] else out) ++ seg) dotdot := by
  obtain ⟨hne, hs, hdot, hdotdot⟩ := hp
  obtain ⟨h1, h2⟩ := takeWhile_plain seg tail hs ht
  cases seg with
  | nil => exact absurd rfl hne
  | cons c r =>
    simp only [List.mem_cons, not_or] at hs
    have hc : c ≠ '/' := fun e => hs.1 e.symm
    have hcase2 : ¬ (c = '.' ∧ (r ++ tail = [] ∨ (r ++ tail).head? = some '/')) := by
      rintro ⟨rfl, h⟩
      cases r with
      | nil => exact hdot rfl
      | cons c2 r2 =>
        simp only [List.cons_append, List.head?_cons, Option.some.injEq, reduceCtorEq,
          false_or] at h
        simp only [List.mem_cons, not_or] at hs
        exact hs.2.1 h.symm
    have hcase3 : ¬ (c = '.' ∧ (r ++ tail).head? = some '.' ∧
        ((r ++ tail).tail = [] ∨ (r ++ tail).tail.head? = some '/')) := by
      rintro ⟨rfl, h, h3⟩
      cases r with
      | nil =>
        rcases ht with rfl | ht
        · simp at h
        · simp only [List.nil_append] at h
          rw [ht] at h
          simp at h
      | cons c2 r2 =>
        simp only [List.cons_append, List.head?_cons, Option.some.injEq] at h
        subst h
        cases r2 with
        | nil => exact hdotdot rfl
        | cons c3 r3 =>
          simp only [List.cons_append, List.tail_cons, List.head?_cons, Option.some.injEq,
            reduceCtorEq, false_or] at h3
          simp only [List.mem_cons, not_or] at hs
          exact hs.2.2.1 h3.symm
    rw [List.cons_append] at h1 h2 ⊢
    rw [cleanLoop]
    simp only [hc, if_false, hcase2, hcase3, h1, h2]

/-- The loop of `path.Clean` copies a sequence of plain elements as it is. -/
theorem cleanLoop_slashJoin (rooted : Bool) (segs : List (List Char)) (fuel : Nat)
    (out : List Char) (dotdot : Nat) (hp : ∀ seg ∈ segs, PlainSegment seg)
    (hf : (slashJoin segs).length ≤ fuel)
    (ho : (rooted = true ∧ out.length ≠ 1) ∨ (rooted = false ∧ out.length ≠ 0)) :
    cleanLoop rooted fuel (slashJoin segs) out dotdot = out ++ slashJoin segs := by
  induction segs generalizing fuel out with
  | nil => cases fuel <;> simp [slashJoin, cleanLoop]
  | cons d ds ih =>
    have hd : PlainSegment d := hp d (List.mem_cons_self _ _)
    have hdlen : 1 ≤ d.length := by
      cases d with
      | nil => exact absurd rfl hd.1
      | cons _ _ => simp
    simp only [slashJoin, List.length_cons, List.length_append] at hf
    obtain ⟨fuel, rfl⟩ : ∃ k, fuel = k + 2 := ⟨fuel - 2, by omega⟩
    show cleanLoop rooted (fuel + 1 + 1) ('/' :: (d ++ slashJoin ds)) out dotdot = _
    rw [cleanLoop_slash, cleanLoop_plain rooted fuel d (slashJoin ds) out dotdot hd
      (slashJoin_tail ds), if_pos ho]
    rw [ih fuel _ (fun seg hseg => hp seg (List.mem_cons_of_mem _ hseg)) (by omega)]
    · simp [slashJoin]
    · have h2 : 2 ≤ (out ++ ['/'] ++ d).length := by
        simp only [List.length_append, List.length_singleton]
        omega
      cases rooted
      · exact Or.inr ⟨rfl, by omega⟩
      · exact Or.inl ⟨rfl, by omega⟩

/-- The function `path.Clean` returns a rooted path of plain elements as it is. -/
theorem Clean_slashJoin (segs : List (List Char)) (hne : segs ≠ [])
    (hp : ∀ seg ∈ segs, PlainSegment seg) : Clean (slashJoin segs) = slashJoin segs := by
  cases segs with
  | nil => exact absurd rfl hne
  | cons d ds =>
    have hd : PlainSegment d := hp d (List.mem_cons_self _ _)
    have hdlen : 1 ≤ d.length := by
      cases d with
      | nil => exact absurd rfl hd.1
      | cons _ _ => simp
    have hloop : cleanLoop true (slashJoin (d :: ds)).length (d ++ slashJoin ds) ['/'] 1 =
        '/' :: d ++ slashJoin ds := by
      obtain ⟨k, hk⟩ : ∃ k, (slashJoin (d :: ds)).length = k + 1 := ⟨_, rfl⟩
      rw [hk, cleanLoop_plain true k d (slashJoin ds) ['/'] 1 hd (slashJoin_tail ds)]
      simp only [List.length_singleton, ne_eq, not_true_eq_false, and_false, Bool.true_eq_false,
        false_and, or_self, if_false]
      rw [cleanLoop_slashJoin true ds k _ 1 (fun seg hseg => hp seg (List.mem_cons_of_mem _ hseg))]
      · simp
      · simp only [slashJoin, List.length_cons, List.length_append] at hk
        omega
      · refine Or.inl ⟨rfl, ?_⟩
        simp only [List.length_append, List.length_singleton]
        omega
    simp only [Clean, slashJoin, List.cons_append, List.head?_cons, List.tail_cons, if_true,
      reduceCtorEq, if_false] at hloop ⊢
    rw [hloop]
    simp

/-- The function `path.Clean` returns a relative path of plain elements as it is. -/
theorem Clean_relative (d : List Char) (ds : List (List Char)) (hd : PlainSegment d)
    (hp : ∀ seg ∈ ds, PlainSegment seg) : Clean (d ++ slashJoin ds) = d ++ slashJoin ds := by
  obtain ⟨c, r, rfl⟩ : ∃ c r, d = c :: r := by
    cases d with
    | nil => exact absurd rfl hd.1
    | cons c r => exact ⟨c, r, rfl⟩
  have hc : c ≠ '/' := fun e => hd.2.1 (by simp [e])
  have hloop : cleanLoop false (c :: r ++ slashJoin ds).length (c :: r ++ slashJoin ds) [] 0 =
      c :: r ++ slashJoin ds := by
    obtain ⟨k, hk⟩ : ∃ k, (c :: r ++ slashJoin ds).length = k + 1 := ⟨_, rfl⟩
    rw [hk, cleanLoop_plain false k (c :: r) (slashJoin ds) [] 0 hd (slashJoin_tail ds)]
    have hif : (if (false = true ∧ ([] : List Char).length ≠ 1) ∨
        (false = false ∧ ([] : List Char).length ≠ 0) then ([] : List Char) ++ ['/'] else []) = [] := by
      simp
    rw [hif, List.nil_append, cleanLoop_slashJoin false ds k _ 0 hp]
    · simp only [List.cons_append, List.length_cons, List.length_append] at hk
      omega
    · exact Or.inr ⟨rfl, by simp⟩
  have hhead : ¬ (some c = some '/') := by simpa using hc
  simp only [Clean, List.cons_append, List.head?_cons, reduceCtorEq, if_false, hhead] at hloop ⊢
  rw [hloop]
  simp

/-- The loop of `path.Clean` with any fuel that covers its input. -/
theorem cleanLoop_run (rooted : Bool) (fuel : Nat) (rest out : List Char) (dotdot : Nat)
    (h : rest.length ≤ fuel) :
    cleanLoop rooted fuel rest out dotdot = cleanLoop rooted rest.length rest out dotdot :=
  cleanLoop_fuel rooted fuel rest.length rest out dotdot h le_rfl

/-- The loop of `path.Clean` copies a sequence of plain elements and goes on
with what follows them, when that is empty or starts with `/`. -/
theorem cleanLoop_slashJoin_tail (rooted : Bool) (segs : List (List Char)) (tail out : List Char)
    (dotdot : Nat) (hp : ∀ seg ∈ segs, PlainSegment seg)
    (ht : tail = [] ∨ tail.head? = some '/')
    (ho : (rooted = true ∧ out.length ≠ 1) ∨ (rooted = false ∧ out.length ≠ 0)) :
    cleanLoop rooted (slashJoin segs ++ tail).length (slashJoin segs ++ tail) out dotdot =
      cleanLoop rooted tail.length tail (out ++ slashJoin segs) dotdot := by
  induction segs generalizing out with
  | nil => simp [slashJoin]
  | cons d ds ih =>
    have hd : PlainSegment d := hp d (List.mem_cons_self _ _)
    have hdlen : 1 ≤ d.length := by
      cases d with
      | nil => exact absurd rfl hd.1
      | cons _ _ => simp
    have htl : slashJoin ds ++ tail = [] ∨ (slashJoin ds ++ tail).head? = some '/' := by
      cases ds with
      | nil => simpa [slashJoin] using ht
      | cons x xs => simp [slashJoin]
    have h2 : 2 ≤ (out ++ ['/'] ++ d).length := by
      simp only [List.length_append, List.length_singleton]
      omega
    have ho2 : (rooted = true ∧ (out ++ ['/'] ++ d).length ≠ 1) ∨
        (rooted = false ∧ (out ++ ['/'] ++ d).length ≠ 0) := by
      cases rooted
      · exact Or.inr ⟨rfl, by omega⟩
      · exact Or.inl ⟨rfl, by omega⟩
    obtain ⟨k, hk⟩ : ∃ k, (slashJoin (d :: ds) ++ tail).length = k + 1 + 1 :=
      ⟨(slashJoin ds ++ tail).length + d.length - 1, by
        simp only [slashJoin, List.cons_append, List.length_cons, List.length_append]
        omega⟩
    have hklen : (slashJoin ds ++ tail).length ≤ k := by
      simp only [slashJoin, List.cons_append, List.length_cons, List.length_append] at hk ⊢
      omega
    rw [hk]
    have e : slashJoin (d :: ds) ++ tail = '/' :: (d ++ (slashJoin ds ++ tail)) := by
      simp [slashJoin]
    rw [e, cleanLoop_slash, cleanLoop_plain rooted k d (slashJoin ds ++ tail) out dotdot hd htl,
      if_pos ho, cleanLoop_run rooted k _ _ dotdot hklen,
      ih (out ++ ['/'] ++ d) (fun seg hseg => hp seg (List.mem_cons_of_mem _ hseg)) ho2]
    simp [slashJoin]

/-- The function `path.Clean` writes the `/` once when a rooted path of plain
elements (or the root alone) is followed by `/` and a rooted path of plain
elements. -/
theorem Clean_slashJoin_slash (dirs more : List (List Char)) (hmore : more ≠ [])
    (hdirs : ∀ seg ∈ dirs, PlainSegment seg) (hp : ∀ seg ∈ more, PlainSegment seg) :
    Clean (slashJoin dirs ++ '/' :: slashJoin more) = slashJoin dirs ++ slashJoin more := by
  obtain ⟨m, ms, rfl⟩ : ∃ m ms, more = m :: ms := by
    cases more with
    | nil => exact absurd rfl hmore
    | cons m ms => exact ⟨m, ms, rfl⟩
  have hm : PlainSegment m := hp m (List.mem_cons_self _ _)
  have hms : ∀ seg ∈ ms, PlainSegment seg := fun seg h => hp seg (List.mem_cons_of_mem _ h)
  have hmlen : 1 ≤ m.length := by
    cases m with
    | nil => exact absurd rfl hm.1
    | cons _ _ => simp
  -- the loop on the second part, entered with the buffer that holds the first part
  have hsecond : ∀ out : List Char, 1 ≤ out.length →
      cleanLoop true (slashJoin (m :: ms)).length (slashJoin (m :: ms)) out 1 =
        (if out.length ≠ 1 then out ++ ['/'] else out) ++ m ++ slashJoin ms := by
    intro out hout
    have e : slashJoin (m :: ms) = '/' :: (m ++ slashJoin ms) := by simp [slashJoin]
    obtain ⟨k, hk⟩ : ∃ k, (slashJoin (m :: ms)).length = k + 1 + 1 :=
      ⟨(slashJoin ms).length + m.length - 1, by
        simp only [slashJoin, List.length_cons, List.length_append]
        omega⟩
    have hkl : (slashJoin ms).length ≤ k := by
      simp only [slashJoin, List.length_cons, List.length_append] at hk
      omega
    rw [hk, e, cleanLoop_slash, cleanLoop_plain true k m (slashJoin ms) out 1 hm
      (slashJoin_tail ms)]
    have hif : (if (true = true ∧ out.length ≠ 1) ∨ (true = false ∧ out.length ≠ 0)
        then out ++ ['/'] else out) = (if out.length ≠ 1 then out ++ ['/'] else out) := by
      simp
    rw [hif, cleanLoop_slashJoin true ms k _ 1 hms hkl]
    refine Or.inl ⟨rfl, ?_⟩
    simp only [List.length_append]
    split_ifs <;> simp <;> omega
  cases dirs with
  | nil =>
    have h := hsecond ['/'] (by simp)
    simp only [List.length_singleton, ne_eq, not_true_eq_false, if_false] at h
    have hrun : cleanLoop true ('/' :: slashJoin (m :: ms)).length (slashJoin (m :: ms)) ['/'] 1 =
        '/' :: (m ++ slashJoin ms) := by
      rw [cleanLoop_run true _ _ _ 1 (by simp), h]
      simp
    simp only [Clean, slashJoin, List.nil_append, List.cons_append, List.head?_cons,
      List.tail_cons, if_true, reduceCtorEq, if_false] at hrun ⊢
    rw [hrun]
    simp
  | cons d ds =>
    have hd : PlainSegment d := hdirs d (List.mem_cons_self _ _)
    have hds : ∀ seg ∈ ds, PlainSegment seg := fun seg h => hdirs seg (List.mem_cons_of_mem _ h)
    have hdlen : 1 ≤ d.length := by
      cases d with
      | nil => exact absurd rfl hd.1
      | cons _ _ => simp
    have htl : ('/' :: slashJoin (m :: ms)) = [] ∨
        ('/' :: slashJoin (m :: ms)).head? = some '/' := Or.inr rfl
    have htl2 : slashJoin ds ++ '/' :: slashJoin (m :: ms) = [] ∨
        (slashJoin ds ++ '/' :: slashJoin (m :: ms)).head? = some '/' := by
      cases ds <;> simp [slashJoin]
    have hloop : cleanLoop true (slashJoin (d :: ds) ++ '/' :: slashJoin (m :: ms)).length
        (d ++ (slashJoin ds ++ '/' :: slashJoin (m :: ms))) ['/'] 1 =
        '/' :: d ++ slashJoin ds ++ slashJoin (m :: ms) := by
      obtain ⟨k, hk⟩ : ∃ k, (slashJoin (d :: ds) ++ '/' :: slashJoin (m :: ms)).length = k + 1 :=
        ⟨(d ++ (slashJoin ds ++ '/' :: slashJoin (m :: ms))).length, by
          simp only [slashJoin, List.cons_append, List.length_cons, List.length_append]
          omega⟩
      have hkl : (slashJoin ds ++ '/' :: slashJoin (m :: ms)).length ≤ k := by
        simp only [slashJoin, List.cons_append, List.length_cons, List.length_append] at hk ⊢
        omega
      rw [hk, cleanLoop_plain true k d _ ['/'] 1 hd htl2]
      have hif : (if (true = true ∧ (['/'] : List Char).length ≠ 1) ∨
          (true = false ∧ (['/'] : List Char).length ≠ 0) then ['/'] ++ ['/'] else ['/']) =
          ['/'] := by simp
      have ho : (true = true ∧ (['/'] ++ d).length ≠ 1) ∨
          (true = false ∧ (['/'] ++ d).length ≠ 0) := by
        refine Or.inl ⟨rfl, ?_⟩
        simp only [List.length_append, List.length_singleton]
        omega
      rw [hif, cleanLoop_run true k _ _ 1 hkl,
        cleanLoop_slashJoin_tail true ds _ (['/'] ++ d) 1 hds htl ho,
        List.length_cons, cleanLoop_slash, hsecond _ (by simp)]
      have h3 : (['/'] ++ d ++ slashJoin ds).length ≠ 1 := by
        simp only [List.length_append, List.length_singleton]
        omega
      rw [if_pos h3]
      simp [slashJoin]
    simp only [Clean, slashJoin, List.cons_append, List.head?_cons, List.tail_cons, if_true,
      reduceCtorEq, if_false, List.append_assoc] at hloop ⊢
    rw [hloop]
    simp

/-- The loop of `path.Join` on a non-empty first element: every further element
is appended after a `/`. -/
theorem joinBuf_nonempty (buf : List Char) (hb : 0 < buf.length) (es : List (List Char)) :
    joinBuf buf es = buf ++ slashJoin es := by
  induction es generalizing buf with
  | nil => simp [joinBuf, slashJoin]
  | cons e es ih =>
    rw [joinBuf, if_pos (Or.inl hb), if_pos hb, ih _ (by simp)]
    simp [slashJoin]

/-- On a rooted path of plain elements followed by plain elements, `path.Join`
is concatenation with `/`. -/
theorem Join_rooted (dirs : List (List Char)) (hne : dirs ≠ []) (p a b c d : String)
    (hroot : p.data = slashJoin dirs) (hdirs : ∀ seg ∈ dirs, PlainSegment seg)
    (ha : PlainSegment a.data) (hb : PlainSegment b.data) (hc : PlainSegment c.data)
    (hd : PlainSegment d.data) :
    Join [p, a, b, c, d] = p ++ "/" ++ a ++ "/" ++ b ++ "/" ++ c ++ "/" ++ d := by
  have hlen : 0 < p.data.length := by
    rw [hroot]
    cases dirs with
    | nil => exact absurd rfl hne
    | cons x xs => simp [slashJoin]
  have hsum : ¬ ([p, a, b, c, d].map String.length).sum = 0 := by
    simp only [List.map_cons, List.map_nil, List.sum_cons, List.sum_nil, String.length]
    omega
  have hbuf : joinBuf [] ([p, a, b, c, d].map String.data) =
      slashJoin (dirs ++ [a.data, b.data, c.data, d.data]) := by
    have hp : p.data ≠ [] := fun e => by simp [e] at hlen
    simp only [List.map_cons, List.map_nil]
    rw [joinBuf, if_pos (Or.inr hp)]
    simp only [List.length_nil, lt_self_iff_false, if_false, List.nil_append]
    rw [joinBuf_nonempty _ hlen, slashJoin_append, hroot]
  have hall : ∀ seg ∈ dirs ++ [a.data, b.data, c.data, d.data], PlainSegment seg := by
    intro seg hseg
    simp only [List.mem_append, List.mem_cons, List.mem_singleton, List.not_mem_nil,
      or_false] at hseg
    rcases hseg with h | rfl | rfl | rfl | rfl
    · exact hdirs seg h
    · exact ha
    · exact hb
    · exact hc
    · exact hd
  apply String.ext
  rw [Join, if_neg hsum, hbuf, Clean_slashJoin _ (by simp) hall, slashJoin_append, ← hroot]
  have hs : "/".data = ['/'] := rfl
  simp [String.data_append, slashJoin, hs]

/-- On an empty first element followed by plain elements, `path.Join` is the
relative path of these elements. -/
theorem Join_empty_root (a b c d : String)
    (ha : PlainSegment a.data) (hb : PlainSegment b.data) (hc : PlainSegment c.data)
    (hd : PlainSegment d.data) :
    Join ["", a, b, c, d] = a ++ "/" ++ b ++ "/" ++ c ++ "/" ++ d := by
  have hlen : 0 < a.data.length := by
    cases h : a.data with
    | nil => exact absurd h ha.1
    | cons x xs => simp
  have hsum : ¬ (["", a, b, c, d].map String.length).sum = 0 := by
    simp only [List.map_cons, List.map_nil, List.sum_cons, List.sum_nil, String.length]
    omega
  have he : "".data = [] := rfl
  have hbuf : joinBuf [] (["", a, b, c, d].map String.data) =
      a.data ++ slashJoin [b.data, c.data, d.data] := by
    simp only [List.map_cons, List.map_nil, he]
    rw [joinBuf, if_neg (by simp), joinBuf, if_pos (Or.inr ha.1)]
    simp only [List.length_nil, lt_self_iff_false, if_false, List.nil_append]
    rw [joinBuf_nonempty _ hlen]
  have hall : ∀ seg ∈ [b.data, c.data, d.data], PlainSegment seg := by
    intro seg hseg
    simp only [List.mem_cons, List.mem_singleton, List.not_mem_nil, or_false] at hseg
    rcases hseg with rfl | rfl | rfl
    · exact hb
    · exact hc
    · exact hd
  apply String.ext
  rw [Join, if_neg hsum, hbuf, Clean_relative _ _ ha hall]
  have hs : "/".data = ['/'] := rfl
  simp [String.data_append, slashJoin, hs]

/-- On a non-empty first element `path.Join` cleans the elements joined by `/`. -/
theorem Join_nonempty_root (p a b c d : String) (hp : p ≠ "") :
    Join [p, a, b, c, d] =
      String.mk (Clean (p ++ "/" ++ a ++ "/" ++ b ++ "/" ++ c ++ "/" ++ d).data) := by
  have hpd : p.data ≠ [] := fun e => hp (String.ext e)
  have hlen : 0 < p.data.length := List.length_pos.mpr hpd
  have hsum : ¬ ([p, a, b, c, d].map String.length).sum = 0 := by
    simp only [List.map_cons, List.map_nil, List.sum_cons, List.sum_nil, String.length]
    omega
  have hbuf : joinBuf [] ([p, a, b, c, d].map String.data) =
      p.data ++ slashJoin [a.data, b.data, c.data, d.data] := by
    simp only [List.map_cons, List.map_nil]
    rw [joinBuf, if_pos (Or.inr hpd)]
    simp only [List.length_nil, lt_self_iff_false, if_false, List.nil_append]
    rw [joinBuf_nonempty _ hlen]
  have hs : "/".data = ['/'] := rfl
  rw [Join, if_neg hsum, hbuf]
  congr 2
  simp [String.data_append, slashJoin, hs]

/-- On an empty first element `path.Join` cleans the other elements joined by `/`. -/
theorem Join_empty_root_clean (a b c d : String) (ha : a ≠ "") :
    Join ["", a, b, c, d] = String.mk (Clean (a ++ "/" ++ b ++ "/" ++ c ++ "/" ++ d).data) := by
  have had : a.data ≠ [] := fun e => ha (String.ext e)
  have hlen : 0 < a.data.length := List.length_pos.mpr had
  have hsum : ¬ (["", a, b, c, d].map String.length).sum = 0 := by
    simp only [List.map_cons, List.map_nil, List.sum_cons, List.sum_nil, String.length]
    omega
  have he : "".data = [] := rfl
  have hbuf : joinBuf [] (["", a, b, c, d].map String.data) =
      a.data ++ slashJoin [b.data, c.data, d.data] := by
    simp only [List.map_cons, List.map_nil, he]
    rw [joinBuf, if_neg (by simp), joinBuf, if_pos (Or.inr had)]
    simp only [List.length_nil, lt_self_iff_false, if_false, List.nil_append]
    rw [joinBuf_nonempty _ hlen]
  have hs : "/".data = ['/'] := rfl
  rw [Join, if_neg hsum, hbuf]
  congr 2
  simp [String.data_append, slashJoin, hs]

/-- On a rooted path of plain elements that ends in one more `/` (or on the
root `/` alone), followed by plain elements, `path.Join` writes that `/` once. -/
theorem Join_rooted_slash (dirs : List (List Char)) (p a b c d : String)
    (hroot : p.data = slashJoin dirs ++ ['/']) (hdirs : ∀ seg ∈ dirs, PlainSegment seg)
    (ha : PlainSegment a.data) (hb : PlainSegment b.data) (hc : PlainSegment c.data)
    (hd : PlainSegment d.data) :
    Join [p, a, b, c, d] =
      String.mk (slashJoin dirs) ++ "/" ++ a ++ "/" ++ b ++ "/" ++ c ++ "/" ++ d := by
  have hp : p ≠ "" := by
    intro e
    have := congrArg String.data e
    rw [hroot] at this
    simp at this
  have hall : ∀ seg ∈ [a.data, b.data, c.data, d.data], PlainSegment seg := by
    intro seg hseg
    simp only [List.mem_cons, List.mem_singleton, List.not_mem_nil, or_false] at hseg
    rcases hseg with rfl | rfl | rfl | rfl
    · exact ha
    · exact hb
    · exact hc
    · exact hd
  have hs : "/".data = ['/'] := rfl
  have hdata : (p ++ "/" ++ a ++ "/" ++ b ++ "/" ++ c ++ "/" ++ d).data =
      slashJoin dirs ++ '/' :: slashJoin [a.data, b.data, c.data, d.data] := by
    simp [String.data_append, slashJoin, hs, hroot]
  rw [Join_nonempty_root _ _ _ _ _ hp, hdata,
    Clean_slashJoin_slash dirs _ (by simp) hdirs hall]
  apply String.ext
  simp [String.data_append, slashJoin, hs]

theorem plain_current : PlainSegment "current".data := by
  unfold PlainSegment
  decide

/-! ## The race of `CheckUpdateAsync` -/

theorem Inv_init (sent : Option Bool) : Inv sent AsyncState.init 0 := by
  constructor <;> simp [AsyncState.init, AsyncState.branch, AsyncState.stepsLeft]

theorem Inv_step {sent : Option Bool} {s s1 : AsyncState} {n : Nat} {a : Action}
    (h : Inv sent s n) (hs : CheckUpdateAsync.step sent s a = some s1) : Inv sent s1 (n + 1) := by
  obtain ⟨cd, cc, tf, tc, o, ch, wr, rc⟩ := s
  obtain ⟨h1, h2, h3, h4, h5⟩ := h
  cases a
  case checkEnd =>
    cases cd <;> cases sent <;> simp [CheckUpdateAsync.step] at hs
    · subst hs
      cases o <;> constructor <;>
        simp_all [AsyncState.branch, AsyncState.stepsLeft, Publishes] <;> omega
    · obtain ⟨hl, rfl⟩ := hs
      cases o <;> constructor <;>
        simp_all [AsyncState.branch, AsyncState.stepsLeft, Publishes] <;> omega
  case timerFire =>
    cases tf <;> simp [CheckUpdateAsync.step] at hs
    obtain ⟨hl, rfl⟩ := hs
    cases o <;> constructor <;>
      simp_all [AsyncState.branch, AsyncState.stepsLeft, Publishes] <;> omega
  case selectCheck =>
    cases o <;> cases cc <;> simp [CheckUpdateAsync.step] at hs
    subst hs
    cases sent <;> cases cd <;> cases tf <;> constructor <;>
      simp_all [AsyncState.branch, AsyncState.stepsLeft, Publishes, Option.toList]
  case selectTimer =>
    cases o <;> cases tc <;> simp [CheckUpdateAsync.step] at hs
    subst hs
    cases cd <;> cases tf <;> constructor <;>
      simp_all [AsyncState.branch, AsyncState.stepsLeft, Publishes]
  case send =>
    cases o <;> simp [CheckUpdateAsync.step] at hs
    obtain ⟨hl, rfl⟩ := hs
    cases cd <;> cases tf <;> constructor <;>
      simp_all [AsyncState.branch, AsyncState.stepsLeft, Publishes]
  case receive =>
    cases ch with
    | nil => simp [CheckUpdateAsync.step] at hs
    | cons v rest =>
      simp [CheckUpdateAsync.step] at hs
      subst hs
      have hlen : wr.length ≤ 1 := by
        cases o
        · simp only at h2
          simp [h2]
        · simp only at h2
          simp [h2.1]
        · simp only at h2
          obtain ⟨x, hx, -⟩ := h2
          simp [hx]
      have hrc : rc = [] ∧ rest = [] := by
        have := congrArg List.length h1
        simp only [List.length_append, List.length_cons] at this
        constructor <;> apply List.eq_nil_of_length_eq_zero <;> omega
      obtain ⟨rfl, rfl⟩ := hrc
      simp only [List.nil_append] at h1
      subst h1
      cases o <;> cases cd <;> cases tf <;> constructor <;>
        simp_all [AsyncState.branch, AsyncState.stepsLeft, Publishes]

/-- Every state reached from the initial one by a schedule satisfies the invariant. -/
theorem Inv_run {sent : Option Bool} {s0 s : AsyncState} {n : Nat} (acts : List Action)
    (h : Inv sent s0 n) (hr : CheckUpdateAsync.run sent s0 acts = some s) : Inv sent s (n + acts.length) := by
  induction acts generalizing s0 n with
  | nil =>
    simp only [CheckUpdateAsync.run, Option.some.injEq] at hr
    subst hr
    simpa using h
  | cons a as ih =>
    simp only [CheckUpdateAsync.run] at hr
    cases hs : CheckUpdateAsync.step sent s0 a with
    | none => simp [hs] at hr
    | some s1 =>
      rw [hs] at hr
      have := ih (Inv_step h hs) hr
      simpa [Nat.add_assoc, Nat.add_comm 1] using this

/-- While the outer goroutine has not finished, the timer or the outer
goroutine itself can take a step: the `select` cannot block for ever and the
send finds the channel empty. -/
theorem Inv_progress {sent : Option Bool} {s : AsyncState} {n : Nat} (h : Inv sent s n)
    (hf : s.outerFinished = false) :
    ∃ a s1, (a = .timerFire ∨ a = .selectTimer ∨ a = .send) ∧ CheckUpdateAsync.step sent s a = some s1 := by
  suffices h0 : (CheckUpdateAsync.step sent s .timerFire).isSome = true ∨ (CheckUpdateAsync.step sent s .selectTimer).isSome = true ∨
      (CheckUpdateAsync.step sent s .send).isSome = true by
    rcases h0 with h0 | h0 | h0
    · obtain ⟨s1, e⟩ := Option.isSome_iff_exists.mp h0
      exact ⟨_, s1, Or.inl rfl, e⟩
    · obtain ⟨s1, e⟩ := Option.isSome_iff_exists.mp h0
      exact ⟨_, s1, Or.inr (Or.inl rfl), e⟩
    · obtain ⟨s1, e⟩ := Option.isSome_iff_exists.mp h0
      exact ⟨_, s1, Or.inr (Or.inr rfl), e⟩
  obtain ⟨cd, cc, tf, tc, o, ch, wr, rc⟩ := s
  obtain ⟨h1, h2, h3, h4, h5⟩ := h
  cases o with
  | selecting =>
    cases tf with
    | false =>
      simp only [Bool.false_eq_true, if_false] at h4
      exact Or.inl (by simp [CheckUpdateAsync.step, h4.1])
    | true =>
      simp [AsyncState.branch] at h4
      exact Or.inr (Or.inl (by simp [CheckUpdateAsync.step, h4]))
  | sending v b =>
    simp only at h2
    have hch : ch = [] := by
      have := h2.1 ▸ h1
      simp at this
      exact this.2
    exact Or.inr (Or.inr (by simp [CheckUpdateAsync.step, hch]))
  | finished b => simp [AsyncState.outerFinished] at hf

/-! ## The claims -/

/-- C1: the value `checkSelfUpdate` sends on its channel always exists, and it is
`true` exactly when the fetch succeeded, the bytes were decoded without error,
the decoded version differs from the last `-`-separated segment of
`CurrentVersion` and `User.InPartition(StartPartition, EndPartition)` answers
`true`; in every other case it is `false`. -/
theorem checkSelfUpdate_sent_iff (w : World) (u : SelfUpdater) :
    ∃ b : Bool, (checkSelfUpdate w u).sent = some b ∧
      (b = true ↔ ∃ data lv key, w.LoadFile u.LatestVersionUrl = .ok data ∧
        w.Unmarshal data LatestVersion.zero = (lv, none) ∧
        IsLastSegment u.CurrentVersion key ∧ lv.Version ≠ key ∧
        u.User.InPartition lv.StartPartition lv.EndPartition = true) := by
  obtain ⟨key, hk, hseg⟩ := suffixVersion_isLastSegment u.CurrentVersion
  unfold checkSelfUpdate
  cases hF : w.LoadFile u.LatestVersionUrl with
  | error err => exact ⟨false, rfl, by simp⟩
  | ok data =>
    cases hU : w.Unmarshal data LatestVersion.zero with
    | mk lv perr =>
      cases perr with
      | some err =>
        refine ⟨false, by simp [hU], ?_⟩
        simp only [Bool.false_eq_true, false_iff, not_exists, not_and]
        intro d lv2 k hd hu
        cases hd
        rw [hU] at hu
        simp at hu
      | none =>
        refine ⟨lv.Version != key && u.User.InPartition lv.StartPartition lv.EndPartition,
          by simp only [hU, hk], ?_⟩
        simp only [Bool.and_eq_true, bne_iff_ne, ne_eq]
        constructor
        · rintro ⟨h1, h2⟩
          exact ⟨data, lv, key, rfl, hU, hseg, h1, h2⟩
        · rintro ⟨d, lv2, k, hd, hu, hs, h1, h2⟩
          cases hd
          rw [hU] at hu
          cases hu
          cases hs.unique hseg
          exact ⟨h1, h2⟩

/-- C2: for every current version string, the empty one and those ending in `-`
included, the comparison key of `checkSelfUpdate` is defined; it holds no `-`,
it is the string itself when that holds no `-`, and the string ends in `-`
followed by the key when it holds one (so the key is what follows the last
`-`). -/
theorem suffixVersion_defined_and_last (v : String) :
    ∃ key : String, suffixVersion v = some key ∧ '-' ∉ key.data ∧
      ('-' ∉ v.data → key = v) ∧
      ('-' ∈ v.data → ∃ pre : String, v = pre ++ "-" ++ key) :=
  suffixVersion_spec v

/-- C2 at the version of the specification, `1.2.3-abc123`, which yields
`abc123`; the empty string and a string ending in `-` yield the empty key. -/
theorem suffixVersion_defined_and_last_witness :
    suffixVersion "1.2.3-abc123" = some "abc123" ∧ suffixVersion "" = some "" ∧
      suffixVersion "1.2.3-" = some "" ∧ suffixVersion "abc123" = some "abc123" ∧
      ∃ key : String, suffixVersion "1.2.3-abc123" = some key ∧ '-' ∉ key.data ∧
        ('-' ∉ "1.2.3-abc123".data → key = "1.2.3-abc123") ∧
        ('-' ∈ "1.2.3-abc123".data → ∃ pre : String, "1.2.3-abc123" = pre ++ "-" ++ key) :=
  ⟨by decide, by decide, by decide, by decide, suffixVersion_defined_and_last "1.2.3-abc123"⟩

/-- C3: when the decoded metadata has `StartPartition > EndPartition`, the value
sent by `checkSelfUpdate` is `false`, whatever the current and the fetched
version are (the membership test being the inclusive range test of the
specification). -/
theorem checkSelfUpdate_empty_range (w : World) (u : SelfUpdater) (partition : Nat)
    (data : Bytes) (lv : LatestVersion) (hUser : u.User = User.ofPartition partition)
    (hFetch : w.LoadFile u.LatestVersionUrl = .ok data)
    (hParse : w.Unmarshal data LatestVersion.zero = (lv, none))
    (hRange : lv.StartPartition > lv.EndPartition) :
    (checkSelfUpdate w u).sent = some false := by
  obtain ⟨key, hk, -⟩ := suffixVersion_isLastSegment u.CurrentVersion
  have hno : (User.ofPartition partition).InPartition lv.StartPartition lv.EndPartition = false := by
    simp only [User.ofPartition, Bool.and_eq_false_iff, decide_eq_false_iff_not]
    omega
  simp [checkSelfUpdate, hFetch, hParse, hk, hUser, hno]

/-- C3 on a run: the range 9 to 3, the versions `abc` and `def`, partition 5. -/
theorem checkSelfUpdate_empty_range_witness :
    (9 : Nat) > 3 ∧
      (checkSelfUpdate
        { sampleWorld with
          Unmarshal := fun _ _ =>
            ({ Version := "def", ReleaseNotes := "", StartPartition := 9, EndPartition := 3 },
              none) }
        { sampleUpdater with User := User.ofPartition 5 }).sent = some false :=
  ⟨by decide,
    checkSelfUpdate_empty_range _ _ 5 [123, 125]
      { Version := "def", ReleaseNotes := "", StartPartition := 9, EndPartition := 3 }
      rfl rfl rfl (by decide)⟩

/-- C4: with the `ForceSelfUpdate` flag set, whatever value was received from
the channel, `Update` computes `canBeSelfUpdated = true` and does not return at
line 55: after the evaluation of line 53 it prints the banner of lines 58-62
(with whatever it finds in `u.latestVersion`), shows the reminder of line 63
and reads the answer with `fmt.Scanf("%c")`, and then goes on with either the
abort notice or the announcement of line 70 and the resolution of the URL. -/
theorem Update_forced (w : World) (u : SelfUpdater) (reads : VersionReads) (received : Bool)
    (hForce : w.ForceSelfUpdate = true) :
    (canBeSelfUpdated w received).1 = true ∧
      ∃ rest, (Update w u reads received).trace =
          (if received = true then [] else [Event.loadDebugFlags]) ++
          [Event.println ["\n-----------------------------------"],
            .printf "🚀 %s version %s \n" [u.BinaryName, u.CurrentVersion],
            .printf "\nan update of %s (%s) is available:\n\n"
              [u.BinaryName, reads.line60.Version],
            .println [reads.line61.ReleaseNotes],
            .println [],
            .reminder "do you want to update it? [yN]",
            .scanf "%c"] ++ rest ∧
        (rest = [.println ["aborted by user"]] ∨
          ∃ more, rest =
            [Event.printf "update and install the latest version of %s (%s)\n"
              [u.BinaryName, reads.line70.Version],
            .urlParse u.SelfUpdateRootUrl] ++ more) := by
  have hc : (canBeSelfUpdated w received).1 = true := by
    cases received <;> simp [canBeSelfUpdated, hForce]
  refine ⟨hc, ?_⟩
  by_cases hy : consent w = true
  · rcases hL : latestDownloadUrl w u with ⟨url, _ | err⟩
    · rw [Update_download w u reads received hc hy hL]
      refine ⟨_, ?_, Or.inr ⟨(doSelfUpdate w url).trace ++
        (match (doSelfUpdate w url).err with
         | some err => [.consoleError "update failed: %s\n" [err]]
         | none => []), rfl⟩⟩
      simp only [canBeSelfUpdated_trace, promptTrace, resolveTrace, List.append_assoc]
    · rw [Update_resolve_error w u reads received hc hy hL]
      refine ⟨_, ?_, Or.inr ⟨[.consoleError "update failed: %s\n" [err]], rfl⟩⟩
      simp only [canBeSelfUpdated_trace, promptTrace, resolveTrace, List.append_assoc]
  · simp only [Bool.not_eq_true] at hy
    rw [Update_decline w u reads received hc hy]
    refine ⟨_, ?_, Or.inl rfl⟩
    simp only [canBeSelfUpdated_trace, promptTrace]

/-- C4 on runs: the check answered `false`, the flag is set, the operator
answers `n`; the banner and the reminder are shown and the answer is read. In a
second run, after a timeout, the goroutine of `checkSelfUpdate` fills
`u.latestVersion` between line 60 and line 61 and the operator answers `y`:
line 60 prints the empty version and line 70 the fetched one. -/
theorem Update_forced_witness :
    (Update { sampleWorld with ForceSelfUpdate := true, Scanf := (121, none) } sampleUpdater
        { line60 := LatestVersion.zero, line61 := sampleUpdater.latestVersion,
          line70 := sampleUpdater.latestVersion } false).trace =
        [.loadDebugFlags,
         .println ["\n-----------------------------------"],
         .printf "🚀 %s version %s \n" ["cola", "2.0.0-abc"],
         .printf "\nan update of %s (%s) is available:\n\n" ["cola", ""],
         .println ["notes"],
         .println [],
         .reminder "do you want to update it? [yN]",
         .scanf "%c",
         .printf "update and install the latest version of %s (%s)\n" ["cola", "def"],
         .urlParse "https://example.com/dl",
         .httpGet "https://example.com/dl/current/linux/amd64/cola",
         .consoleError "update failed: %s\n"
           ["cannot download the new version from " ++
            "https://example.com/dl/current/linux/amd64/cola: code 404"]] ∧
    (Update { sampleWorld with ForceSelfUpdate := true } sampleUpdater sampleReads false).trace =
        [.loadDebugFlags,
         .println ["\n-----------------------------------"],
         .printf "🚀 %s version %s \n" ["cola", "2.0.0-abc"],
         .printf "\nan update of %s (%s) is available:\n\n" ["cola", "def"],
         .println ["notes"],
         .println [],
         .reminder "do you want to update it? [yN]",
         .scanf "%c",
         .println ["aborted by user"]] ∧
      (canBeSelfUpdated { sampleWorld with ForceSelfUpdate := true } false).1 = true :=
  ⟨by decide, by decide,
    (Update_forced { sampleWorld with ForceSelfUpdate := true } sampleUpdater sampleReads false
      rfl).1⟩

/-- C5: in every run of `CheckUpdateAsync`, under every interleaving of the
check, the timer, the outer goroutine and the receiver: at most one value is
ever sent on the channel, and exactly one once the outer goroutine has
finished; that value is the one the check sent when the `select` took the check
case and `false` when it took the timer case; on the timer case the value of
the check, if it comes, stays unread in the channel of `checkSelfUpdate`; the
outer goroutine can always go on until it has finished, every schedule has at
most five steps, and a run that cannot go on has sent exactly one value. -/
theorem CheckUpdateAsync_writes_once (sent : Option Bool) (acts : List Action) (s : AsyncState)
    (hRun : CheckUpdateAsync.run sent AsyncState.init acts = some s) :
    s.written.length ≤ 1 ∧
      (s.outerFinished = true ↔ s.written.length = 1) ∧
      (∀ v ∈ s.written, ∃ b, s.branch = some b ∧ Publishes sent v b) ∧
      (s.branch = some .timer → ∀ v ∈ s.written, v = false) ∧
      (s.branch = some .timer → s.checkDone = true → s.checkChan = sent.toList) ∧
      (s.outerFinished = false →
        ∃ a s1, (a = .timerFire ∨ a = .selectTimer ∨ a = .send) ∧ CheckUpdateAsync.step sent s a = some s1) ∧
      acts.length ≤ 5 ∧
      ((∀ a, CheckUpdateAsync.step sent s a = none) → s.written.length = 1) := by
  have hI : Inv sent s (0 + acts.length) := Inv_run acts (Inv_init sent) hRun
  have hP := fun hf => Inv_progress hI hf
  obtain ⟨h1, h2, h3, h4, h5⟩ := hI
  have hW : s.written.length ≤ 1 ∧ (s.outerFinished = true ↔ s.written.length = 1) ∧
      (∀ v ∈ s.written, ∃ b, s.branch = some b ∧ Publishes sent v b) := by
    cases ho : s.outer with
    | selecting =>
      rw [ho] at h2
      simp [AsyncState.outerFinished, ho, show s.written = [] from h2]
    | sending v b =>
      rw [ho] at h2
      simp [AsyncState.outerFinished, ho, h2.1]
    | finished b =>
      rw [ho] at h2
      obtain ⟨v, hv, hp⟩ := h2
      simp [AsyncState.outerFinished, AsyncState.branch, ho, hv, hp]
  obtain ⟨hW1, hW2, hW3⟩ := hW
  refine ⟨hW1, hW2, hW3, ?_, ?_, hP, by omega, ?_⟩
  · intro hb v hv
    obtain ⟨b, hb2, hp⟩ := hW3 v hv
    rw [hb] at hb2
    cases hb2
    rcases hp with ⟨hc, -⟩ | ⟨-, hv⟩
    · cases hc
    · exact hv
  · intro hb hd
    simpa [hd, hb] using h3
  · intro hstuck
    cases hf : s.outerFinished with
    | true => exact hW2.mp hf
    | false =>
      obtain ⟨a, s1, -, hs⟩ := hP hf
      rw [hstuck a] at hs
      cases hs

/-- C5 on two schedules with a check that sends `true`: when the timer wins,
`false` is published and `true` stays unread; when the check wins, `true` is
published. -/
theorem CheckUpdateAsync_writes_once_witness :
    (CheckUpdateAsync.run (some true) AsyncState.init
        [.timerFire, .selectTimer, .checkEnd, .send, .receive]).map
        (fun s => (s.written, s.received, s.checkChan)) = some ([false], [false], [true]) ∧
      (CheckUpdateAsync.run (some true) AsyncState.init
        [.checkEnd, .timerFire, .selectCheck, .send, .receive]).map
        (fun s => (s.written, s.received, s.checkChan)) = some ([true], [true], []) ∧
      ([false] : List Bool).length ≤ 1 :=
  ⟨by decide, by decide,
    (CheckUpdateAsync_writes_once (some true)
      [.timerFire, .selectTimer, .checkEnd, .send, .receive]
      { checkDone := true, checkChan := [true], timerFired := true, timerChan := 0,
        outer := .finished .timer, selfUpdateChan := [], written := [false],
        received := [false] }
      (by decide)).1⟩

/-- C6: when the value received from the channel is `false` and the
`ForceSelfUpdate` flag is not set, `Update` returns `nil` and the only call it
makes is the read of the debug flags: nothing is printed, no input is read, no
URL is resolved, no HTTP request is made and `update.Apply` is not called. -/
theorem Update_not_eligible (w : World) (u : SelfUpdater) (reads : VersionReads)
    (hForce : w.ForceSelfUpdate = false) :
    Update w u reads false = { err := none, trace := [.loadDebugFlags] } ∧
      ∀ e ∈ (Update w u reads false).trace, e.isConsole = false ∧ e.isDownloadStep = false := by
  have h : Update w u reads false = { err := none, trace := [.loadDebugFlags] } := by
    simp [Update, canBeSelfUpdated, hForce]
  refine ⟨h, fun e he => ?_⟩
  rw [h, List.mem_singleton] at he
  subst he
  exact ⟨rfl, rfl⟩

/-- C6 on a run: the fetched version `abc` equals the trailing segment of
`2.0.0-abc`, so the check sends `false`, and `Update` does nothing. -/
theorem Update_not_eligible_witness :
    (checkSelfUpdate
        { sampleWorld with
          Unmarshal := fun _ _ =>
            ({ Version := "abc", ReleaseNotes := "", StartPartition := 0, EndPartition := 100 },
              none) }
        sampleUpdater).sent = some false ∧
      Update sampleWorld sampleUpdater sampleReads false = { err := none, trace := [.loadDebugFlags] } :=
  ⟨by decide, (Update_not_eligible sampleWorld sampleUpdater sampleReads rfl).1⟩

/-- C7: on an eligible run (the received value is `true` or the force flag is
set), after the banner and the prompt, `Update` resolves
the download URL exactly when the read of one character succeeded and the
character is `y` or `Y`. In that case it announces the update, resolves the
URL, and either reports and returns the error of the resolution, or runs
`doSelfUpdate` on the resolved URL (whose first call is the HTTP GET) and
returns its result, reporting its error if it has one. For any other outcome
of the read it prints the abort notice, returns the error `Aborted by user`,
and neither resolves the URL nor makes an HTTP request nor calls
`update.Apply`. -/
theorem Update_consent (w : World) (u : SelfUpdater) (reads : VersionReads) (received : Bool)
    (hEligible : received = true ∨ w.ForceSelfUpdate = true) :
    (Event.urlParse u.SelfUpdateRootUrl ∈ (Update w u reads received).trace ↔
        (w.Scanf.2 = none ∧ (w.Scanf.1 = ('y'.toNat : Int) ∨ w.Scanf.1 = ('Y'.toNat : Int)))) ∧
      ((w.Scanf.2 = none ∧ (w.Scanf.1 = ('y'.toNat : Int) ∨ w.Scanf.1 = ('Y'.toNat : Int))) →
        (∀ url err, latestDownloadUrl w u = (url, some err) →
          Update w u reads received =
            { err := some err,
              trace := (if received = true then [] else [Event.loadDebugFlags]) ++
                [Event.println ["\n-----------------------------------"],
            .printf "🚀 %s version %s \n" [u.BinaryName, u.CurrentVersion],
            .printf "\nan update of %s (%s) is available:\n\n"
              [u.BinaryName, reads.line60.Version],
            .println [reads.line61.ReleaseNotes],
            .println [],
            .reminder "do you want to update it? [yN]",
            .scanf "%c"] ++
                [Event.printf "update and install the latest version of %s (%s)\n"
              [u.BinaryName, reads.line70.Version],
            .urlParse u.SelfUpdateRootUrl] ++
                [.consoleError "update failed: %s\n" [err]] }) ∧
        (∀ url, latestDownloadUrl w u = (url, none) →
          (Update w u reads received).err = (doSelfUpdate w url).err ∧
          (Update w u reads received).trace =
            (if received = true then [] else [Event.loadDebugFlags]) ++
              [Event.println ["\n-----------------------------------"],
            .printf "🚀 %s version %s \n" [u.BinaryName, u.CurrentVersion],
            .printf "\nan update of %s (%s) is available:\n\n"
              [u.BinaryName, reads.line60.Version],
            .println [reads.line61.ReleaseNotes],
            .println [],
            .reminder "do you want to update it? [yN]",
            .scanf "%c"] ++
              [Event.printf "update and install the latest version of %s (%s)\n"
              [u.BinaryName, reads.line70.Version],
            .urlParse u.SelfUpdateRootUrl] ++
              (doSelfUpdate w url).trace ++
              (match (doSelfUpdate w url).err with
               | some err => [.consoleError "update failed: %s\n" [err]]
               | none => []) ∧
          Event.httpGet url ∈ (Update w u reads received).trace)) ∧
      (¬ (w.Scanf.2 = none ∧ (w.Scanf.1 = ('y'.toNat : Int) ∨ w.Scanf.1 = ('Y'.toNat : Int))) →
        (Update w u reads received).err = some "Aborted by user" ∧
        (Update w u reads received).trace =
          (if received = true then [] else [Event.loadDebugFlags]) ++
            [Event.println ["\n-----------------------------------"],
            .printf "🚀 %s version %s \n" [u.BinaryName, u.CurrentVersion],
            .printf "\nan update of %s (%s) is available:\n\n"
              [u.BinaryName, reads.line60.Version],
            .println [reads.line61.ReleaseNotes],
            .println [],
            .reminder "do you want to update it? [yN]",
            .scanf "%c"] ++
            [.println ["aborted by user"]] ∧
        ∀ e ∈ (Update w u reads received).trace, e.isDownloadStep = false) := by
  have hE : (canBeSelfUpdated w received).1 = true :=
    (canBeSelfUpdated_value w received).mpr hEligible
  rw [← consent_iff]
  have hpre : ∀ e ∈ (canBeSelfUpdated w received).2, e.isDownloadStep = false := by
    cases received <;> simp [canBeSelfUpdated, Event.isDownloadStep]
  have hdecl : ∀ e ∈ (canBeSelfUpdated w received).2 ++ promptTrace u reads ++
      [.println ["aborted by user"]], e.isDownloadStep = false := by
    intro e he
    simp only [List.mem_append, List.mem_singleton] at he
    rcases he with (he | he) | he
    · exact hpre e he
    · simp only [promptTrace, List.mem_cons, List.mem_singleton, List.not_mem_nil,
        or_false] at he
      rcases he with rfl | rfl | rfl | rfl | rfl | rfl | rfl <;> rfl
    · subst he
      rfl
  by_cases hy : consent w = true
  · refine ⟨⟨fun _ => hy, fun _ => ?_⟩, fun _ => ⟨?_, ?_⟩, fun h => absurd hy h⟩
    · rcases hL : latestDownloadUrl w u with ⟨url, _ | err⟩
      · rw [Update_download w u reads received hE hy hL]
        simp [resolveTrace]
      · rw [Update_resolve_error w u reads received hE hy hL]
        simp [resolveTrace]
    · intro url err hL
      rw [Update_resolve_error w u reads received hE hy hL]
      simp only [canBeSelfUpdated_trace, promptTrace, resolveTrace]
    · intro url hL
      rw [Update_download w u reads received hE hy hL]
      refine ⟨rfl, ?_, ?_⟩
      · simp only [canBeSelfUpdated_trace, promptTrace, resolveTrace]
      · have := doSelfUpdate_httpGet w url
        simp [this]
  · have hn : consent w = false := by simpa using hy
    rw [Update_decline w u reads received hE hn]
    refine ⟨⟨fun h => ?_, fun h => absurd h hy⟩, fun h => absurd h hy, fun _ => ⟨rfl, ?_, hdecl⟩⟩
    · have := hdecl _ h
      simp [Event.isDownloadStep] at this
    · simp only [canBeSelfUpdated_trace, promptTrace]

/-- C7 on the scenario of the specification: version `2.0.0-abc`, fetched
`def`, partition in range, answer `n`: the check sends `true`, `Update` prompts,
returns the abort error and makes no download; with the answer `y` it resolves
the URL, makes the HTTP GET and returns the error of the download. -/
theorem Update_consent_witness :
    (checkSelfUpdate sampleWorld sampleUpdater).sent = some true ∧
      Update sampleWorld sampleUpdater sampleReads true =
        { err := some "Aborted by user",
          trace :=
            [.println ["\n-----------------------------------"],
             .printf "🚀 %s version %s \n" ["cola", "2.0.0-abc"],
             .printf "\nan update of %s (%s) is available:\n\n" ["cola", "def"],
             .println ["notes"],
             .println [],
             .reminder "do you want to update it? [yN]",
             .scanf "%c",
             .println ["aborted by user"]] } ∧
      (Update { sampleWorld with Scanf := (121, none) } sampleUpdater sampleReads true).trace =
        [.println ["\n-----------------------------------"],
         .printf "🚀 %s version %s \n" ["cola", "2.0.0-abc"],
         .printf "\nan update of %s (%s) is available:\n\n" ["cola", "def"],
         .println ["notes"],
         .println [],
         .reminder "do you want to update it? [yN]",
         .scanf "%c",
         .printf "update and install the latest version of %s (%s)\n" ["cola", "def"],
         .urlParse "https://example.com/dl",
         .httpGet "https://example.com/dl/current/linux/amd64/cola",
         .consoleError "update failed: %s\n"
           ["cannot download the new version from " ++
            "https://example.com/dl/current/linux/amd64/cola: code 404"]] ∧
      (Event.urlParse sampleUpdater.SelfUpdateRootUrl ∈
          (Update sampleWorld sampleUpdater sampleReads true).trace ↔
        (sampleWorld.Scanf.2 = none ∧
          (sampleWorld.Scanf.1 = ('y'.toNat : Int) ∨ sampleWorld.Scanf.1 = ('Y'.toNat : Int)))) :=
  ⟨by decide, by decide, by decide,
    (Update_consent sampleWorld sampleUpdater sampleReads true (Or.inl rfl)).1⟩

/-- C8: when the HTTP GET of the download URL ends in a transport error or in a
status other than 200, `doSelfUpdate` returns an error whose message holds the
URL and the transport error, or the URL and the status code; the GET is the
only call it makes, so `update.Apply` is not called; and `Update`, having
resolved that URL, returns the same error and never calls `update.Apply`. -/
theorem doSelfUpdate_download_failure (w : World) (url : String)
    (hFail : downloadFails w url = true) :
    (∃ msg, (doSelfUpdate w url).err = some msg ∧
        (∀ e, w.HttpGetWrapper url = .error e →
          msg = "cannot download the new version from " ++ url ++ ": " ++ e) ∧
        (∀ resp, w.HttpGetWrapper url = .ok resp →
          msg = "cannot download the new version from " ++ url ++ ": code " ++
            toString resp.StatusCode)) ∧
      (doSelfUpdate w url).trace = [.httpGet url] ∧
      ∀ (u : SelfUpdater) (reads : VersionReads) (received : Bool), (canBeSelfUpdated w received).1 = true →
        consent w = true → latestDownloadUrl w u = (url, none) →
        (Update w u reads received).err = (doSelfUpdate w url).err ∧
          ∀ e ∈ (Update w u reads received).trace, e.isApply = false := by
  have hD : (∃ msg, (doSelfUpdate w url).err = some msg ∧
        (∀ e, w.HttpGetWrapper url = .error e →
          msg = "cannot download the new version from " ++ url ++ ": " ++ e) ∧
        (∀ resp, w.HttpGetWrapper url = .ok resp →
          msg = "cannot download the new version from " ++ url ++ ": code " ++
            toString resp.StatusCode)) ∧
      (doSelfUpdate w url).trace = [.httpGet url] := by
    unfold downloadFails at hFail
    unfold doSelfUpdate
    cases hG : w.HttpGetWrapper url with
    | error e => exact ⟨⟨_, rfl, by simp, by simp⟩, rfl⟩
    | ok resp =>
      have hF : resp.StatusCode ≠ 200 := by simpa [hG] using hFail
      simp only [hF, ne_eq, not_false_eq_true, if_true]
      exact ⟨⟨_, rfl, by simp, by simp⟩, by simp⟩
  obtain ⟨⟨msg, hmsg, h1, h2⟩, htr⟩ := hD
  refine ⟨⟨msg, hmsg, h1, h2⟩, htr, fun u reads received hE hC hL => ?_⟩
  rw [Update_download w u reads received hE hC hL]
  refine ⟨rfl, fun e he => ?_⟩
  simp only [htr, hmsg, List.mem_append, List.mem_singleton] at he
  rcases he with (((he | he) | he) | he) | he
  · have h0 : e = .loadDebugFlags := by
      revert he
      cases received <;> simp [canBeSelfUpdated]
    subst h0
    rfl
  · simp only [promptTrace, List.mem_cons, List.mem_singleton, List.not_mem_nil, or_false] at he
    rcases he with rfl | rfl | rfl | rfl | rfl | rfl | rfl <;> rfl
  · simp only [resolveTrace, List.mem_cons, List.mem_singleton, List.not_mem_nil, or_false] at he
    rcases he with rfl | rfl <;> rfl
  · subst he
    rfl
  · subst he
    rfl

/-- C8 on the scenario of the specification: the download answers 404, the
operator has consented; the error names the URL and the code, nothing is applied. -/
theorem doSelfUpdate_download_failure_witness :
    Update { sampleWorld with Scanf := (121, none) } sampleUpdater sampleReads true =
        { err := some ("cannot download the new version from " ++
            "https://example.com/dl/current/linux/amd64/cola: code 404"),
          trace := promptTrace sampleUpdater sampleReads ++ resolveTrace sampleUpdater sampleReads ++
            [.httpGet "https://example.com/dl/current/linux/amd64/cola",
             .consoleError "update failed: %s\n"
               ["cannot download the new version from " ++
                "https://example.com/dl/current/linux/amd64/cola: code 404"]] } ∧
      (doSelfUpdate { sampleWorld with Scanf := (121, none) }
          "https://example.com/dl/current/linux/amd64/cola").trace =
        [.httpGet "https://example.com/dl/current/linux/amd64/cola"] :=
  ⟨by decide,
    (doSelfUpdate_download_failure { sampleWorld with Scanf := (121, none) }
      "https://example.com/dl/current/linux/amd64/cola" (by decide)).2.1⟩

/-- C9: when the download answers 200 and `update.Apply` fails, `doSelfUpdate`
returns an error exactly when `update.RollbackError` reports one. When it
reports none, a warning is emitted and the result is `nil`; when it reports
one, the result is the error that tells the operator to contact the team. In
both cases `Update`, having resolved that URL, returns what `doSelfUpdate`
returned. -/
theorem doSelfUpdate_apply_failure (w : World) (url : String) (resp : Response)
    (applyErr : GoError) (hGet : w.HttpGetWrapper url = .ok resp)
    (hStatus : resp.StatusCode = 200) (hApply : w.Apply resp.Body = some applyErr) :
    ((doSelfUpdate w url).err ≠ none ↔ w.RollbackError applyErr ≠ none) ∧
      (w.RollbackError applyErr = none →
        doSelfUpdate w url =
          { err := none,
            trace := [.httpGet url, .apply resp.Body, .rollbackError applyErr,
              .consoleWarn "update failed, rollback to previous version: %v\n" ["<nil>"],
              .bodyClose] }) ∧
      (∀ rollbackErr, w.RollbackError applyErr = some rollbackErr →
        doSelfUpdate w url =
          { err := some ("update failed, unfortunately, the rollback did not work neither: " ++
              rollbackErr ++ "\nplease contact #build-services team"),
            trace := [.httpGet url, .apply resp.Body, .rollbackError applyErr, .bodyClose] }) ∧
      ∀ (u : SelfUpdater) (reads : VersionReads) (received : Bool), (canBeSelfUpdated w received).1 = true →
        consent w = true → latestDownloadUrl w u = (url, none) →
        (Update w u reads received).err = (doSelfUpdate w url).err := by
  refine ⟨?_, ?_, ?_, fun u reads received hE hC hL => ?_⟩
  · cases hR : w.RollbackError applyErr <;> simp [doSelfUpdate, hGet, hStatus, hApply, hR]
  · intro hR
    simp [doSelfUpdate, hGet, hStatus, hApply, hR]
  · intro rollbackErr hR
    simp [doSelfUpdate, hGet, hStatus, hApply, hR]
  · rw [Update_download w u reads received hE hC hL]

/-- C9 on the two scenarios of the specification: the replacement fails; when
the rollback succeeds `Update` returns `nil` after a warning, when the rollback
fails `Update` returns the fatal error. -/
theorem doSelfUpdate_apply_failure_witness :
    (Update
        { sampleWorld with
          Scanf := (121, none), HttpGetWrapper := fun _ => .ok { StatusCode := 200, Body := [1] } }
        sampleUpdater sampleReads true).err = none ∧
      (Update
        { sampleWorld with
          Scanf := (89, none), HttpGetWrapper := fun _ => .ok { StatusCode := 200, Body := [1] },
          RollbackError := fun _ => some "rename failed" }
        sampleUpdater sampleReads true).err =
        some ("update failed, unfortunately, the rollback did not work neither: " ++
          "rename failed\nplease contact #build-services team") ∧
      ((doSelfUpdate
          { sampleWorld with
            Scanf := (121, none),
            HttpGetWrapper := fun _ => .ok { StatusCode := 200, Body := [1] } }
          "https://example.com/dl/current/linux/amd64/cola").err ≠ none ↔
        sampleWorld.RollbackError "permission denied" ≠ none) :=
  ⟨by decide, by decide,
    (doSelfUpdate_apply_failure
      { sampleWorld with
        Scanf := (121, none), HttpGetWrapper := fun _ => .ok { StatusCode := 200, Body := [1] } }
      "https://example.com/dl/current/linux/amd64/cola" { StatusCode := 200, Body := [1] }
      "permission denied" rfl rfl rfl).1⟩

/-- C10, as worded, fails: the path is not always
`<root path>/current/<OS>/<architecture>/<file name>`. With the binary name
`../../x` the returned URL has the path `/dl/current/x`, without OS and
architecture, and with the root `https://example.com/dl/` it has the path
`/dl/current/linux/amd64/cola` where the template reads `/dl//current/...`. -/
theorem latestDownloadUrl_template_counterexample :
    (sampleWorld.Parse dotsUpdater.SelfUpdateRootUrl =
        .ok { Scheme := "https", Opaque := "", Host := "example.com", Path := "/dl",
              RawPath := "", RawQuery := "", Fragment := "" } ∧
      latestDownloadUrl sampleWorld dotsUpdater = ("https://example.com/dl/current/x", none) ∧
      latestDownloadUrl sampleWorld dotsUpdater ≠
        (sampleWorld.UrlString
          { Scheme := "https", Opaque := "", Host := "example.com",
            Path := "/dl" ++ "/" ++ "current" ++ "/" ++ sampleWorld.GOOS ++ "/" ++
              sampleWorld.GOARCH ++ "/" ++ binaryFileName sampleWorld dotsUpdater,
            RawPath := "", RawQuery := "", Fragment := "" }, none)) ∧
      (slashWorld.Parse slashUpdater.SelfUpdateRootUrl = .ok slashRoot ∧
        latestDownloadUrl slashWorld slashUpdater =
          ("https://example.com/dl/current/linux/amd64/cola", none) ∧
        latestDownloadUrl slashWorld slashUpdater ≠
          (slashWorld.UrlString
            { slashRoot with
              Path := slashRoot.Path ++ "/" ++ "current" ++ "/" ++ slashWorld.GOOS ++ "/" ++
                slashWorld.GOARCH ++ "/" ++ binaryFileName slashWorld slashUpdater }, none)) :=
  ⟨⟨rfl, by decide, by decide⟩, rfl, by decide, by decide⟩

/-- C10, amended: `binaryFileName` is `BinaryName` followed by `.exe` exactly
when the OS is `windows`, and `BinaryName` itself otherwise. When the root URL
does not parse, `latestDownloadUrl` returns the empty string and the error.
When it parses, `latestDownloadUrl` returns the parsed URL, rendered, with its
path replaced by `path.Clean` of `<root path>/current/<OS>/<architecture>/<file
name>` (of `current/<OS>/<architecture>/<file name>` when the root path is
empty). That cleaned path is the template itself, character for character,
when the root path is a non-empty sequence of plain elements each after a `/`
and OS, architecture and file name are plain elements (not empty, without `/`,
neither `.` nor `..`); with an empty root path and such elements it is
`current/<OS>/<architecture>/<file name>`; and when the root path is such a
sequence followed by one more `/` (or is `/` alone), the cleaned path is the
template with that `/` written once. -/
theorem latestDownloadUrl_cleaned_template (w : World) (u : SelfUpdater) :
    (binaryFileName w u = u.BinaryName ++ ".exe" ↔ w.GOOS = "windows") ∧
      (w.GOOS ≠ "windows" → binaryFileName w u = u.BinaryName) ∧
      (∀ err, w.Parse u.SelfUpdateRootUrl = .error err →
        latestDownloadUrl w u = ("", some err)) ∧
      (∀ root, w.Parse u.SelfUpdateRootUrl = .ok root → root.Path ≠ "" →
        latestDownloadUrl w u =
          (w.UrlString { root with
              Path := String.mk (Clean (root.Path ++ "/" ++ "current" ++ "/" ++ w.GOOS ++ "/" ++
                w.GOARCH ++ "/" ++ binaryFileName w u).data) },
            none)) ∧
      (∀ root, w.Parse u.SelfUpdateRootUrl = .ok root → root.Path = "" →
        latestDownloadUrl w u =
          (w.UrlString { root with
              Path := String.mk (Clean ("current" ++ "/" ++ w.GOOS ++ "/" ++
                w.GOARCH ++ "/" ++ binaryFileName w u).data) },
            none)) ∧
      (∀ (root : URL) (dirs : List (List Char)), w.Parse u.SelfUpdateRootUrl = .ok root →
        dirs ≠ [] → root.Path.data = slashJoin dirs → (∀ seg ∈ dirs, PlainSegment seg) →
        PlainSegment w.GOOS.data → PlainSegment w.GOARCH.data →
        PlainSegment (binaryFileName w u).data →
        latestDownloadUrl w u =
          (w.UrlString { root with
              Path := root.Path ++ "/" ++ "current" ++ "/" ++ w.GOOS ++ "/" ++ w.GOARCH ++ "/" ++
                binaryFileName w u },
            none)) ∧
      (∀ root, w.Parse u.SelfUpdateRootUrl = .ok root → root.Path = "" →
        PlainSegment w.GOOS.data → PlainSegment w.GOARCH.data →
        PlainSegment (binaryFileName w u).data →
        latestDownloadUrl w u =
          (w.UrlString { root with
              Path := "current" ++ "/" ++ w.GOOS ++ "/" ++ w.GOARCH ++ "/" ++
                binaryFileName w u },
            none)) ∧
      (∀ (root : URL) (dirs : List (List Char)), w.Parse u.SelfUpdateRootUrl = .ok root →
        root.Path.data = slashJoin dirs ++ ['/'] → (∀ seg ∈ dirs, PlainSegment seg) →
        PlainSegment w.GOOS.data → PlainSegment w.GOARCH.data →
        PlainSegment (binaryFileName w u).data →
        latestDownloadUrl w u =
          (w.UrlString { root with
              Path := String.mk (slashJoin dirs) ++ "/" ++ "current" ++ "/" ++ w.GOOS ++ "/" ++
                w.GOARCH ++ "/" ++ binaryFileName w u },
            none)) := by
  have hcur : ("current" : String) ≠ "" := by decide
  refine ⟨?_, ?_, ?_, ?_, ?_, ?_, ?_, ?_⟩
  · unfold binaryFileName
    by_cases h : w.GOOS = "windows"
    · simp [h]
    · simp only [h, if_false, iff_false]
      intro e
      have := congrArg String.length e
      simp [String.length_append] at this
      exact absurd this (by decide)
  · intro h
    simp [binaryFileName, h]
  · intro err h
    simp [latestDownloadUrl, h]
  · intro root h hp
    simp only [latestDownloadUrl, h]
    rw [Join_nonempty_root _ _ _ _ _ hp]
  · intro root h hp
    simp only [latestDownloadUrl, h, hp]
    rw [Join_empty_root_clean _ _ _ _ hcur]
  · intro root dirs h hne hroot hdirs h1 h2 h3
    simp only [latestDownloadUrl, h]
    rw [Join_rooted dirs hne root.Path _ _ _ _ hroot hdirs plain_current h1 h2 h3]
  · intro root h hp h1 h2 h3
    simp only [latestDownloadUrl, h, hp]
    rw [Join_empty_root _ _ _ _ plain_current h1 h2 h3]
  · intro root dirs h hroot hdirs h1 h2 h3
    simp only [latestDownloadUrl, h]
    rw [Join_rooted_slash dirs root.Path _ _ _ _ hroot hdirs plain_current h1 h2 h3]

/-- C10, amended, on runs: on linux with root `https://example.com/dl` the URL
ends in `/dl/current/linux/amd64/cola`, on windows in `cola.exe`; a root that
does not parse gives the empty string and the error; an empty binary name, a
root path that is not clean, an empty root path and a root path that ends in
`/` give the cleaned paths; and
the root path `/dl`, made of the plain element `dl`, gives the template. -/
theorem latestDownloadUrl_cleaned_template_witness :
    latestDownloadUrl sampleWorld sampleUpdater =
        ("https://example.com/dl/current/linux/amd64/cola", none) ∧
      latestDownloadUrl { sampleWorld with GOOS := "windows" } sampleUpdater =
        ("https://example.com/dl/current/windows/amd64/cola.exe", none) ∧
      latestDownloadUrl { sampleWorld with Parse := fun _ => .error "missing protocol scheme" }
        sampleUpdater = ("", some "missing protocol scheme") ∧
      latestDownloadUrl sampleWorld { sampleUpdater with BinaryName := "" } =
        ("https://example.com/dl/current/linux/amd64", none) ∧
      latestDownloadUrl
        { sampleWorld with Parse := fun _ => .ok { slashRoot with Path := "/a/../b//c/./" } }
        sampleUpdater = ("https://example.com/b/c/current/linux/amd64/cola", none) ∧
      latestDownloadUrl { sampleWorld with Parse := fun _ => .ok { slashRoot with Path := "" } }
        sampleUpdater = ("https://example.com/current/linux/amd64/cola", none) ∧
      latestDownloadUrl slashWorld slashUpdater =
        ("https://example.com/dl/current/linux/amd64/cola", none) ∧
      latestDownloadUrl sampleWorld sampleUpdater =
        (sampleWorld.UrlString
          { slashRoot with
            Path := "/dl" ++ "/" ++ "current" ++ "/" ++ sampleWorld.GOOS ++ "/" ++
              sampleWorld.GOARCH ++ "/" ++ binaryFileName sampleWorld sampleUpdater },
          none) :=
  ⟨by decide, by decide, by decide, by decide, by decide, by decide, by decide,
    (latestDownloadUrl_cleaned_template sampleWorld sampleUpdater).2.2.2.2.2.1
      { slashRoot with Path := "/dl" } [['d', 'l']] rfl (by decide) rfl
      (by unfold PlainSegment; decide) (by unfold PlainSegment; decide)
      (by unfold PlainSegment; decide) (by unfold PlainSegment; decide)⟩

end Updater
